import Mathlib

/-!
Verification of the tree-folding core of `tree_library/json_tree_modified.py`
(Tree_Diagram_Generator).

The program folds an ordered sequence of CSV records into three nested-tree
values (`construct_json`, `construct_with_yl`, `detailed_tree`) and decorates
the plain tree with per-depth serial labels (`add_label` / `recur_add_label`).

Shallow embedding conventions:
* A CSV record is a total map from column name to value (`String → String`);
  a `CsvData` bundles the ordered column names with the record list.
* Python `dict`s are association lists that update the first matching key in
  place and append new keys at the end (insertion order preserved), exactly
  like CPython dicts as observed through iteration.
* Python `str(n)` for a natural number is modelled by `natStr` (plain decimal).
* Python negative indices `xs[-1]`, `xs[-2]` become `xs.getD (xs.length - 1)`,
  `xs.getD (xs.length - 2)`; the defaults are only reachable on inputs where
  the Python code would raise `IndexError` (fewer columns than the fixed
  indices require), which the spec rules out of scope.
-/

/-- Decimal digit character, `digitChar n = chr (48 + n)` for `n < 10`. -/
def digitChar (n : Nat) : Char := Char.ofNat (48 + n)

/-- Decimal digits of `n`, fuelled (fuel `n+1` always suffices). -/
def natChars : Nat → Nat → List Char
  | 0, _ => []
  | fuel + 1, n => if n < 10 then [digitChar n] else natChars fuel (n / 10) ++ [digitChar (n % 10)]

/-- Decimal string of a natural number; models Python `str(n)` / `f"{n}"`. -/
def natStr (n : Nat) : String := String.mk (natChars (n + 1) n)

/-- The fixed tree depth, `DEPTH = 4` in the source. -/
def DEPTH : Nat := 4

/-- A CSV file as seen by the builders: header (ordered column names) plus the
ordered record sequence; `csv.DictReader` exposes exactly this. -/
structure CsvData where
  fieldnames : List String
  rows : List (String → String)

/- ## Plain tree values

Tree values produced by `construct_json` / `detailed_tree` and consumed by
`add_label`: nested string-keyed mappings whose leaves are arrays of strings.
Mappings are mutually defined entry lists so that all recursion is structural
and all functions compute. -/

mutual
inductive PTree where
  | arr : List String → PTree
  | obj : PList → PTree
  deriving DecidableEq
inductive PList where
  | pnil : PList
  | pcons : String → PTree → PList → PList
  deriving DecidableEq
end

namespace PList

/-- First value stored under key `k` (Python `track[k]` on a dict). -/
def lookup : PList → String → Option PTree
  | .pnil, _ => none
  | .pcons k₀ v₀ rest, k => if k₀ = k then some v₀ else lookup rest k

/-- Python dict assignment `track[k] = v`: update the first occurrence of `k`
in place, otherwise append the new entry at the end. -/
def upd : PList → String → PTree → PList
  | .pnil, k, v => .pcons k v .pnil
  | .pcons k₀ v₀ rest, k, v =>
      if k₀ = k then .pcons k₀ v rest else .pcons k₀ v₀ (upd rest k v)

/-- Keys in insertion order. -/
def keysL : PList → List String
  | .pnil => []
  | .pcons k _ rest => k :: keysL rest

/-- Entries as a plain Lean list. -/
def toList : PList → List (String × PTree)
  | .pnil => []
  | .pcons k v rest => (k, v) :: toList rest

/-- Concatenation of entry lists. -/
def appendP : PList → PList → PList
  | .pnil, es => es
  | .pcons k v rest, es => .pcons k v (appendP rest es)

end PList

/-- Contents of an optional tree value expected to be a mapping; the Python
code reaches the non-mapping case only in states its own construction never
produces (it would raise there), so the empty mapping default is inert. -/
def getObj : Option PTree → PList
  | some (.obj es) => es
  | _ => .pnil

/-- Contents of an optional tree value expected to be an array (same remark). -/
def getArr : Option PTree → List String
  | some (.arr es) => es
  | _ => []

/-- One step of the per-record dict walk shared by `construct_json` and
`detailed_tree`: walk/create mapping nodes keyed by each field's value in
`fs`, then apply the leaf action `leafF` to the boundary mapping.  Mirrors
`for field in ...: if row[field] not in track: track[row[field]] = {};
track = track[row[field]]` followed by the leaf code. -/
def walkUpd : List String → (String → String) → (PList → PList) → PList → PList
  | [], _, leafF, t => leafF t
  | f :: fs, row, leafF, t =>
      let k := row f
      t.upd k (.obj (walkUpd fs row leafF (getObj (t.lookup k))))

/-- Leaf action of `construct_json` (lines 45–51 of the source): use column
`D-2`'s value as a key into an array, create it if absent, and append column
`D-1`'s value only if not already present. -/
def cjLeaf (fm2 fm1 : String) (row : String → String) (bd : PList) : PList :=
  let k := row fm2
  let cur := getArr (bd.lookup k)
  let v := row fm1
  bd.upd k (.arr (if v ∈ cur then cur else cur ++ [v]))

/-- Root mapping built by `construct_json` (the `output` dict). -/
def cjEntries (data : CsvData) (depth : Nat) : PList :=
  let all_fields := data.fieldnames.take depth
  let fsPre := all_fields.take (all_fields.length - 2)
  let fm2 := all_fields.getD (all_fields.length - 2) ""
  let fm1 := all_fields.getD (all_fields.length - 1) ""
  data.rows.foldl (fun t row => walkUpd fsPre row (cjLeaf fm2 fm1 row) t) .pnil

/-- `construct_json(data, depth)`: fold every record into nested mappings for
the first `depth - 2` of the first `depth` columns, then array leaves with
set-like de-duplication. -/
def construct_json (data : CsvData) (depth : Nat) : PTree :=
  .obj (cjEntries data depth)

/-- Leaf action of `detailed_tree` (lines 155–159): synthetic key
`"Y" ++ row[last column]`, array created if absent, second-to-last column's
value appended unconditionally (duplicates permitted). -/
def dtLeaf (flast f2last : String) (row : String → String) (bd : PList) : PList :=
  let yk := "Y" ++ row flast
  let cur := getArr (bd.lookup yk)
  bd.upd yk (.arr (cur ++ [row f2last]))

/-- Root mapping built by `detailed_tree` (the `output` dict). -/
def dtEntries (data : CsvData) (depth : Nat) : PList :=
  let all_fields := data.fieldnames
  let flast := all_fields.getD (all_fields.length - 1) ""
  let f2last := all_fields.getD (all_fields.length - 2) ""
  data.rows.foldl
    (fun t row => walkUpd (all_fields.take depth) row (dtLeaf flast f2last row) t) .pnil

/-- `detailed_tree(data, depth)`: nested mappings for the first `depth`
columns, then `"Y<last column>"` arrays collecting the second-to-last
column's values. -/
def detailed_tree (data : CsvData) (depth : Nat) : PTree :=
  .obj (dtEntries data depth)

/- ## Year-level tree values (`construct_with_yl`)

The year-level tree mixes key kinds: string keys for the hierarchy plus the
numeric serial keys `track[dis_idx] = entry` (Python `int` keys, which never
collide with `str` keys).  Values are strings, mappings, or arrays whose
elements are themselves (single- or multi-key) mappings. -/

inductive YKey where
  | ks : String → YKey
  | kn : Nat → YKey
  deriving DecidableEq

inductive YVal where
  | vstr : String → YVal
  | varr : List YVal → YVal
  | vobj : List (YKey × YVal) → YVal

/-- First value under a key in a year-level mapping. -/
def ylookup : List (YKey × YVal) → YKey → Option YVal
  | [], _ => none
  | (k₀, v₀) :: rest, k => if k₀ = k then some v₀ else ylookup rest k

/-- Python dict assignment on a year-level mapping: replace the first matching
key in place, else append. -/
def yupd : List (YKey × YVal) → YKey → YVal → List (YKey × YVal)
  | [], k, v => [(k, v)]
  | (k₀, v₀) :: rest, k, v =>
      if k₀ = k then (k₀, v) :: rest else (k₀, v₀) :: yupd rest k v

/-- Contents of an optional year-level value expected to be a mapping. -/
def getYObj : Option YVal → List (YKey × YVal)
  | some (.vobj es) => es
  | _ => []

/-- Contents of an optional year-level value expected to be an array. -/
def getYArr : Option YVal → List YVal
  | some (.varr es) => es
  | _ => []

/-- The linear search of lines 98–103: scan the whole second-level array and
remember the index of the last element that is a mapping containing string key
`t` (the loop has no `break`; topics are unique so at most one matches). -/
def findTopicIdxFrom : List YVal → String → Nat → Option Nat → Option Nat
  | [], _, _, acc => acc
  | v :: rest, t, i, acc =>
      findTopicIdxFrom rest t (i + 1)
        (match v with
         | .vobj es => if (ylookup es (.ks t)).isSome then some i else acc
         | _ => acc)

def findTopicIdx (l : List YVal) (t : String) : Option Nat :=
  findTopicIdxFrom l t 0 none

/-- The per-subtopic year-level token sets (`year_level_dict`): an
insertion-ordered map from subtopic name to the list of distinct tokens in
first-added order (Python uses a `set`, observed only through `sorted`, so a
duplicate-free list is an equivalent model). -/
def sdEnsure (yld : List (String × List String)) (k : String) :
    List (String × List String) :=
  if (yld.lookup k).isSome then yld else yld ++ [(k, [])]

/-- `set.add`: append the token unless already present. -/
def addTok (s : List String) (tok : String) : List String :=
  if tok ∈ s then s else s ++ [tok]

/-- `year_level_dict[k].add(tok)` (the key is guaranteed present). -/
def sdAdd (yld : List (String × List String)) (k : String) (tok : String) :
    List (String × List String) :=
  yld.map (fun p => if p.1 = k then (p.1, addTok p.2 tok) else p)

/-- Python `sorted` on strings: ascending lexicographic.  Insertion sort is an
equivalent (stable, ascending) model that computes structurally. -/
def sortStr (l : List String) : List String :=
  List.insertionSort (fun a b : String => a ≤ b) l

/-- `' '.join`. -/
def joinSpace (l : List String) : String := String.intercalate " " l

/-- One iteration of the record loop of `construct_with_yl` (lines 68–123):
update the year-level summary sets, walk/create the first two levels
(mapping, then array), find or create the single-topic element for the
`DEPTH-1` column's value, insert the `"Y<yl> <tag>"` entry into that element
mapping under the numeric key `len(element)`, then record the display index
under the `DEPTH` column's value inside the topic's inner mapping. -/
def ywlRow (all_fields : List String) (row : String → String)
    (out : List (YKey × YVal)) (yld : List (String × List String)) :
    List (YKey × YVal) × List (String × List String) :=
  let next_tag := row (all_fields.getD (all_fields.length - 2) "")
  let year_level := row (all_fields.getD (all_fields.length - 1) "")
  let subtopic := row (all_fields.getD 1 "")
  let entry := "Y" ++ year_level ++ " " ++ next_tag
  let yld1 := sdAdd (sdEnsure yld subtopic) subtopic ("Y" ++ year_level)
  let yld2 := sdAdd yld1 "All levels" ("Y" ++ year_level)
  -- first two levels: mapping at i = 0, array at i = 1
  let v0 := row (all_fields.getD 0 "")
  let d0 := getYObj (ylookup out (.ks v0))
  let v1 := row (all_fields.getD 1 "")
  let arr0 := getYArr (ylookup d0 (.ks v1))
  -- third level: find or append the single-topic element
  let t := row (all_fields.getD (DEPTH - 1) "")
  let found := findTopicIdx arr0 t
  let arr1 := match found with
    | some _ => arr0
    | none => arr0 ++ [YVal.vobj [(YKey.ks t, YVal.vobj [])]]
  let idx := match found with
    | some i => i
    | none => arr1.length - 1
  let elem := getYObj (arr1.getD idx (.vobj []))
  let dis := elem.length
  let elem1 := yupd elem (.kn dis) (.vstr entry)
  -- last level: record the display index under the DEPTH column's value
  let inner := getYObj (ylookup elem1 (.ks t))
  let g := row (all_fields.getD DEPTH "")
  let inner1 := match ylookup inner (.ks g) with
    | some (.vstr s) => yupd inner (.ks g) (.vstr (s ++ " " ++ natStr dis))
    | some v => yupd inner (.ks g) v   -- unreachable: only strings are stored here
    | none => yupd inner (.ks g) (.vstr (natStr dis))
  let elem2 := yupd elem1 (.ks t) (.vobj inner1)
  let arr2 := arr1.set idx (.vobj elem2)
  let d0' := yupd d0 (.ks v1) (.varr arr2)
  (yupd out (.ks v0) (.vobj d0'), yld2)

/-- `construct_with_yl(data)`: fold every record with `ywlRow`, then flatten
each summary set into a sorted space-joined string and insert these as
top-level keys (lines 125–131). -/
def construct_with_yl (data : CsvData) : List (YKey × YVal) :=
  let all_fields := data.fieldnames
  let st := data.rows.foldl
    (fun st row => ywlRow all_fields row st.1 st.2)
    (([] : List (YKey × YVal)), [("All levels", ([] : List String))])
  st.2.foldl (fun out p => yupd out (.ks p.1) (.vstr (joinSpace (sortStr p.2)))) st.1

/- ## The labeler (`add_label` / `recur_add_label`) -/

/-- `f"{depth+1}.{serial}: {s}"`. -/
def mkLabel (depth serial : Nat) (s : String) : String :=
  natStr (depth + 1) ++ "." ++ natStr serial ++ ": " ++ s

/-- `f"{depth+1}.{node_id[depth]}: {s}"` as in the source; `node_id` has
`DEPTH` entries, and indices past its length (where Python would raise
`IndexError`) read the inert default `0`. -/
def labelOf (depth : Nat) (nodeId : List Nat) (s : String) : String :=
  mkLabel depth (nodeId.getD depth 0) s

/-- `node_id[depth] += 1`. -/
def bumpAt (nodeId : List Nat) (depth : Nat) : List Nat :=
  nodeId.set depth (nodeId.getD depth 0 + 1)

/-- The terminal-array loop of `recur_add_label`: label every element with the
counter at `depth`, bumping it once per element (the loop written as a
recursion over the remaining elements). -/
def labelElems : List String → Nat → List Nat → List String × List Nat
  | [], _, nodeId => ([], nodeId)
  | s :: rest, depth, nodeId =>
      let r := labelElems rest depth (bumpAt nodeId depth)
      (labelOf depth nodeId s :: r.1, r.2)

mutual
/-- `recur_add_label(track, key, val, depth, node_id)`: label `key` with the
counter at `depth`, bump that counter, then descend into `val` at `depth + 1`
(list elements each labelled and counted, mapping entries recursed).  The
mutated `track` dict and `node_id` list are threaded explicitly. -/
def recur_add_label (key : String) (val : PTree) (depth : Nat)
    (nodeId : List Nat) (track : PList) : PList × List Nat :=
  let labeled := labelOf depth nodeId key
  let nodeId1 := bumpAt nodeId depth
  match val with
  | .arr elems =>
      let r := labelElems elems (depth + 1) nodeId1
      (track.upd labeled (.arr r.1), r.2)
  | .obj entries =>
      let r := recur_add_label_list entries (depth + 1) nodeId1 .pnil
      (track.upd labeled (.obj r.1), r.2)

/-- The `for next_key, next_val in val.items()` loop of `recur_add_label`
(also the top-level loop of `add_label`): process each entry in insertion
order, threading the counters. -/
def recur_add_label_list (es : PList) (depth : Nat) (nodeId : List Nat)
    (track : PList) : PList × List Nat :=
  match es with
  | .pnil => (track, nodeId)
  | .pcons k v rest =>
      let r := recur_add_label k v depth nodeId track
      recur_add_label_list rest depth r.2 r.1
end

/-- `add_label(data)`: fresh output dict, counters `[1] * DEPTH`, one
`recur_add_label` call per top-level entry.  Python calls `data.items()`, so a
non-mapping argument would raise; builder output is always a mapping and the
array case here is an inert default. -/
def add_label (data : PTree) : PTree :=
  match data with
  | .obj es => .obj (recur_add_label_list es 0 (List.replicate DEPTH 1) .pnil).1
  | .arr _ => .obj .pnil

/- ## Specification-side definitions

These are stated from the spec's words, independently of the builders'
accumulator style, and the theorems below relate the builders to them. -/

/-- Descend through nested mappings along a key path (absent keys and
non-mapping values read as the empty mapping). -/
def pathGet : List String → PList → PList
  | [], t => t
  | k :: ks, t => pathGet ks (getObj (t.lookup k))

/-- First-occurrence de-duplication of a list, skipping anything in `seen`:
the order of the result is the order of first occurrences. -/
def dedupF : List String → List String → List String
  | [], _ => []
  | x :: xs, seen => if x ∈ seen then dedupF xs seen else x :: dedupF xs (x :: seen)

/-- `if v ∈ es then es else es ++ [v]` as a named step. -/
def dAdd (es : List String) (v : String) : List String :=
  if v ∈ es then es else es ++ [v]

/-- The column-`D-1` values of the records that reach the terminal array at
mapping path `ks` / array key `k` in `construct_json`'s output. -/
def cjSel (data : CsvData) (depth : Nat) (ks : List String) (k : String) :
    List String :=
  let all_fields := data.fieldnames.take depth
  let fsPre := all_fields.take (all_fields.length - 2)
  let fm2 := all_fields.getD (all_fields.length - 2) ""
  let fm1 := all_fields.getD (all_fields.length - 1) ""
  (data.rows.filter fun r => decide (fsPre.map r = ks) && decide (r fm2 = k)).map
    fun r => r fm1

/-- The second-to-last-column values of the records that reach the terminal
array at mapping path `ks` / synthetic year key `yk` in `detailed_tree`'s
output (in record order, duplicates kept). -/
def dtSel (data : CsvData) (depth : Nat) (ks : List String) (yk : String) :
    List String :=
  let all_fields := data.fieldnames
  let flast := all_fields.getD (all_fields.length - 1) ""
  let f2last := all_fields.getD (all_fields.length - 2) ""
  (data.rows.filter fun r =>
      decide ((all_fields.take depth).map r = ks) && decide ("Y" ++ r flast = yk)).map
    fun r => r f2last

mutual
/-- A tree value sitting `n` mapping levels above the array layer: exactly `n`
nested mapping levels, then an array. -/
def okShV : Nat → PTree → Bool
  | 0, .arr _ => true
  | 0, .obj _ => false
  | _ + 1, .arr _ => false
  | n + 1, .obj es => okShL n es
/-- All values of a mapping are `n` levels above the array layer. -/
def okShL : Nat → PList → Bool
  | _, .pnil => true
  | n, .pcons _ v rest => okShV n v && okShL n rest
end

/-- The year-level tokens of all records, in record order. -/
def ylTokens (data : CsvData) : List String :=
  data.rows.map fun r =>
    "Y" ++ r (data.fieldnames.getD (data.fieldnames.length - 1) "")

/-- Shape of a second-level array element in the year-level tree: a mapping
whose first key is the topic string and whose remaining keys are the numeric
serials `1, 2, …, m` in order — each serial key equals the size the element
mapping had when its entry was inserted (the topic key counts). -/
def ElemShape (e : YVal) : Prop :=
  ∃ t v nums, e = YVal.vobj ((YKey.ks t, v) :: nums) ∧
    nums.map Prod.fst = (List.range nums.length).map fun i => YKey.kn (i + 1)

/-- Entries of a year-level mapping value (empty for arrays and strings). -/
def entriesOf (v : YVal) : List (YKey × YVal) := getYObj (some v)

/-- Elements of a year-level array value (empty for mappings and strings). -/
def elemsOf (v : YVal) : List YVal := getYArr (some v)

/-- Every element of every second-level array of a year-level tree has
`ElemShape`. -/
def YInv (out : List (YKey × YVal)) : Prop :=
  ∀ p₁ ∈ out, ∀ p₂ ∈ entriesOf p₁.2, ∀ e ∈ elemsOf p₂.2, ElemShape e

/- Specification side of the labeler. -/

mutual
/-- Pre-order traversal of every labelled item of a tree value whose contents
sit at depth `d`: mapping keys at their depth, terminal-array elements at
their array's depth. -/
def flattenT : Nat → PTree → List (Nat × String)
  | d, .arr es => es.map fun s => (d, s)
  | d, .obj es => flattenL d es
/-- Pre-order traversal of a mapping's labelled items, keys at depth `d`. -/
def flattenL : Nat → PList → List (Nat × String)
  | _, .pnil => []
  | d, .pcons k v rest => (d, k) :: (flattenT (d + 1) v ++ flattenL d rest)
end

mutual
/-- Erase every string of a tree value, leaving only its shape. -/
def blankT : PTree → PTree
  | .arr es => .arr (es.map fun _ => "")
  | .obj es => .obj (blankL es)
/-- Erase every string of a mapping, leaving only its shape. -/
def blankL : PList → PList
  | .pnil => .pnil
  | .pcons _ v rest => .pcons "" (blankT v) (blankL rest)
end

mutual
/-- Every labelled item of this value (contents at depth `d`) lies at a depth
the `DEPTH`-sized counter list covers; on deeper trees Python's
`node_id[depth]` would raise `IndexError`.  The plain builder's depth-4
output always satisfies `okV 1` per entry. -/
def okV : Nat → PTree → Bool
  | d, .arr es => es.isEmpty || decide (d < DEPTH)
  | d, .obj es => okL d es
/-- Mapping version of `okV`, keys at depth `d`. -/
def okL : Nat → PList → Bool
  | _, .pnil => true
  | d, .pcons _ v rest => decide (d < DEPTH) && okV (d + 1) v && okL d rest
end

/-- Spec labelling of a pre-order item sequence: an item at depth `d` whose
predecessors (the whole traversal so far, all parents included) contain
`hs.count d` items of depth `d` receives serial `1 + hs.count d` — the
global-per-depth running serial, started at 1. -/
def labelSeq : List Nat → List (Nat × String) → List (Nat × String)
  | _, [] => []
  | hs, (d, s) :: rest => (d, mkLabel d (1 + hs.count d) s) :: labelSeq (hs ++ [d]) rest

/-- Counter list ↔ traversal history: the counter at each covered depth reads
one more than the number of items already labelled at that depth. -/
def CtrOK (nid : List Nat) (hs : List Nat) : Prop :=
  nid.length = DEPTH ∧ ∀ e, e < DEPTH → nid.getD e 0 = 1 + hs.count e

/-- Accumulator invariant of the labeler at one mapping level: every key
already inserted is a label of this depth whose serial is below the running
counter (`1 + hs.count d`). -/
def TrackOK (d : Nat) (track : PList) (hs : List Nat) : Prop :=
  ∀ key ∈ track.keysL, ∃ s k₀, key = mkLabel d s k₀ ∧ s < 1 + hs.count d

/-- Decimal value of a digit string (used to invert `natChars`). -/
def chVal (l : List Char) : Nat :=
  l.foldl (fun acc c => 10 * acc + (c.toNat - 48)) 0

/-- The serial component of a label `"<d>.<serial>: <original>"`: the
characters between the first `'.'` and the first `':'`. -/
def serialChars (s : String) : List Char :=
  ((s.data.dropWhile fun c => c ≠ '.').drop 1).takeWhile fun c => c ≠ ':'

/-- First key of a mapping, if any. -/
def headKeyO : PList → Option String
  | .pnil => none
  | .pcons k _ _ => some k

/- ## Heap model of `add_label` (for the frame property)

`add_label` mutates Python objects through references; to state that it never
writes to its input, the relevant objects are modelled in an explicit heap:
addresses map to list objects (string elements stored inline — strings are
immutable) or dict objects whose values are addresses.  Allocation hands out
the next free address.  `node_id` is a list `add_label` allocates itself and
never aliases the input, so it stays a threaded value. -/

inductive HObj where
  | hlist : List String → HObj
  | hdict : List (String × Nat) → HObj
  deriving DecidableEq

/-- A heap: association list from address to object. -/
abbrev Heap := List (Nat × HObj)

/-- Read an address. -/
def hget : Heap → Nat → Option HObj
  | [], _ => none
  | (a₀, o₀) :: rest, a => if a₀ = a then some o₀ else hget rest a

/-- Write an address (in place if present, else append). -/
def hset : Heap → Nat → HObj → Heap
  | [], a, o => [(a, o)]
  | (a₀, o₀) :: rest, a, o =>
      if a₀ = a then (a₀, o) :: rest else (a₀, o₀) :: hset rest a o

/-- Python dict assignment on entry lists of address values. -/
def updPairs : List (String × Nat) → String → Nat → List (String × Nat)
  | [], k, v => [(k, v)]
  | (k₀, v₀) :: rest, k, v =>
      if k₀ = k then (k₀, v) :: rest else (k₀, v₀) :: updPairs rest k v

/-- `track[k] = v` on the dict object at `addr` (fails if not a dict, as
Python would). -/
def dictInsertH (h : Heap) (addr : Nat) (k : String) (v : Nat) : Option Heap :=
  match hget h addr with
  | some (.hdict es) => some (hset h addr (.hdict (updPairs es k v)))
  | _ => none

/-- `track.append(s)` on the list object at `addr`. -/
def listAppendH (h : Heap) (addr : Nat) (s : String) : Option Heap :=
  match hget h addr with
  | some (.hlist es) => some (hset h addr (.hlist (es ++ [s])))
  | _ => none

/-- The terminal-array loop of `recur_add_label` against the heap: label each
element, append it to the output list object at `la`, bump the counter. -/
def labelElemsH : List String → Nat → Heap → Nat → List Nat →
    Option (Heap × List Nat)
  | [], _, h, _, nid => some (h, nid)
  | s :: rest, d, h, la, nid =>
      match listAppendH h la (labelOf d nid s) with
      | some h1 => labelElemsH rest d h1 la (bumpAt nid d)
      | none => none

/-- A pending step of the heap traversal: either one `recur_add_label` call
(`rec1 track key valAddr d`) or the `for next_key, next_val in val.items()`
loop over the remaining entries (`go track entries d`). -/
inductive HCmd where
  | rec1 : Nat → String → Nat → Nat → HCmd
  | go : Nat → List (String × Nat) → Nat → HCmd

/-- The two mutually recursive pieces of `recur_add_label` against the heap
as a single function, structural on fuel (every recursive call strictly
consumes fuel, so the kernel can evaluate concrete runs).  Fuel only brings
termination; any sufficiently large fuel runs it fully. -/
def runH : Nat → HCmd → Heap → Nat → List Nat →
    Option (Heap × Nat × List Nat)
  | 0, _, _, _, _ => none
  | fuel + 1, .rec1 track key valAddr d, h, nxt, nid =>
      let labeled := labelOf d nid key
      let nid1 := bumpAt nid d
      match hget h valAddr with
      | some (.hlist elems) =>
          match dictInsertH (hset h nxt (.hlist [])) track labeled nxt with
          | some h2 =>
              match labelElemsH elems (d + 1) h2 nxt nid1 with
              | some r => some (r.1, nxt + 1, r.2)
              | none => none
          | none => none
      | some (.hdict entries) =>
          match dictInsertH (hset h nxt (.hdict [])) track labeled nxt with
          | some h2 => runH fuel (.go nxt entries (d + 1)) h2 (nxt + 1) nid1
          | none => none
      | none => none
  | _ + 1, .go _ [] _, h, nxt, nid => some (h, nxt, nid)
  | fuel + 1, .go track ((k, a) :: rest) d, h, nxt, nid =>
      match runH fuel (.rec1 track k a d) h nxt nid with
      | some r => runH fuel (.go track rest d) r.1 r.2.1 r.2.2
      | none => none

/-- `recur_add_label(track, key, val, depth, node_id)` against the heap:
reads the input value at `valAddr`, allocates the fresh output child at the
current allocation counter, writes only to `track` and to fresh addresses. -/
def recurAddLabelH (fuel track : Nat) (key : String) (valAddr d : Nat)
    (h : Heap) (nxt : Nat) (nid : List Nat) :
    Option (Heap × Nat × List Nat) :=
  runH fuel (.rec1 track key valAddr d) h nxt nid

/-- The `for next_key, next_val in val.items()` loop against the heap. -/
def goEntriesH (fuel track : Nat) (entries : List (String × Nat)) (d : Nat)
    (h : Heap) (nxt : Nat) (nid : List Nat) :
    Option (Heap × Nat × List Nat) :=
  runH fuel (.go track entries d) h nxt nid

/-- `add_label(data)` against the heap: allocate the fresh `output` dict,
iterate the input dict's items.  Returns the output root address, the final
heap and the final allocation counter. -/
def addLabelH (fuel : Nat) (dataAddr : Nat) (h : Heap) (nxt : Nat) :
    Option (Nat × Heap × Nat) :=
  match hget h dataAddr with
  | some (.hdict entries) =>
      match goEntriesH fuel nxt entries 0 (hset h nxt (.hdict [])) (nxt + 1)
          (List.replicate DEPTH 1) with
      | some r => some (nxt, r.1, r.2.1)
      | none => none
  | _ => none

/-- Addresses stored inside a heap object. -/
def addrsOf : HObj → List Nat
  | .hlist _ => []
  | .hdict es => es.map Prod.snd

/-- Every allocated address and every address stored in an object is below
`n`: the heap built before `add_label` runs is closed under its allocation
counter. -/
def heapClosedB (h : Heap) (n : Nat) : Bool :=
  h.all fun p => decide (p.1 < n) && (addrsOf p.2).all fun b => decide (b < n)

/-- Decoder worker, structural on fuel: `Sum.inl a` decodes the tree value
rooted at address `a`, `Sum.inr entries` decodes a dict object's entries. -/
def readH : Nat → Heap → Sum Nat (List (String × Nat)) →
    Option (Sum PTree PList)
  | _, _, .inr [] => some (.inr .pnil)
  | 0, _, _ => none
  | fuel + 1, h, .inl a =>
      match hget h a with
      | some (.hlist es) => some (.inl (.arr es))
      | some (.hdict entries) =>
          match readH fuel h (.inr entries) with
          | some (.inr ps) => some (.inl (.obj ps))
          | _ => none
      | none => none
  | fuel + 1, h, .inr ((k, a) :: rest) =>
      match readH fuel h (.inl a), readH fuel h (.inr rest) with
      | some (.inl v), some (.inr ps) => some (.inr (.pcons k v ps))
      | _, _ => none

/-- Decode the tree value rooted at an address (fuelled). -/
def readT (fuel : Nat) (h : Heap) (a : Nat) : Option PTree :=
  match readH fuel h (.inl a) with
  | some (.inl t) => some t
  | _ => none

/-- Decode a dict object's entries. -/
def readL (fuel : Nat) (h : Heap) (entries : List (String × Nat)) :
    Option PList :=
  match readH fuel h (.inr entries) with
  | some (.inr ps) => some ps
  | _ => none

/- ## Concrete example inputs (used by witnesses and counterexamples) -/

/-- A record over the five-column header `A,B,C,T,G`. -/
def exRow (a b c t g : String) : String → String := fun f =>
  if f = "A" then a else if f = "B" then b else if f = "C" then c
  else if f = "T" then t else if f = "G" then g else ""

/-- The five-column header. -/
def exFields : List String := ["A", "B", "C", "T", "G"]

/-- The spec's scenario input: two records sharing the first three columns. -/
def exData : CsvData :=
  ⟨exFields, [exRow "x" "y" "p" "q" "5", exRow "x" "y" "p" "r" "5"]⟩

/-- The same record twice (produces duplicate leaf entries in
`detailed_tree`). -/
def exDup : CsvData :=
  ⟨exFields, [exRow "x" "y" "p" "q" "5", exRow "x" "y" "p" "q" "5"]⟩

/-- A second input agreeing with `exData` on the first four columns only:
different fifth column name and different fifth-column values. -/
def exDataB : CsvData :=
  ⟨["A", "B", "C", "T", "H"],
   [exRow "x" "y" "p" "q" "7", exRow "x" "y" "p" "r" "9"]⟩

/-- `exData`'s plain tree (root entries), written out. -/
def exPlain : PList :=
  .pcons "x" (.obj (.pcons "y" (.obj (.pcons "p" (.arr ["q", "r"]) .pnil)) .pnil)) .pnil

/-- A two-object heap: the input dict `{"x": <addr 1>}` at address 0 and the
list `["q"]` at address 1. -/
def exHeap : Heap := [(0, .hdict [("x", 1)]), (1, .hlist ["q"])]

/- ## Basic mapping lemmas -/

/-- Induction on a mapping's entry list alone (the mutual recursor has two
motives, which the `induction` tactic cannot use directly). -/
@[elab_as_elim]
theorem PList.recP {motive : PList → Prop} (h0 : motive .pnil)
    (h1 : ∀ k v rest, motive rest → motive (.pcons k v rest)) :
    ∀ t, motive t
  | .pnil => h0
  | .pcons k v rest => h1 k v rest (PList.recP h0 h1 rest)

theorem lookup_upd (t : PList) (k : String) (v : PTree) (k' : String) :
    (t.upd k v).lookup k' = if k = k' then some v else t.lookup k' := by
  induction t using PList.recP with
  | h0 => by_cases h : k = k' <;> simp [PList.upd, PList.lookup, h]
  | h1 k₀ v₀ rest ih =>
      by_cases h0 : k₀ = k
      · subst h0
        by_cases h : k₀ = k' <;> simp [PList.upd, PList.lookup, h]
      · by_cases h : k₀ = k' <;> by_cases hk : k = k' <;>
          simp_all [PList.upd, PList.lookup, h0, h, ih]

theorem pathGet_pnil (ks : List String) : pathGet ks .pnil = .pnil := by
  induction ks with
  | nil => rfl
  | cons k ks ih => simp [pathGet, PList.lookup, getObj, ih]

/-- Reading a path after one record's walk: only the record's own path
changes, and there exactly by the leaf action. -/
theorem pathGet_walkUpd (fs : List String) (ks : List String)
    (row : String → String) (leafF : PList → PList) (t : PList)
    (hlen : ks.length = fs.length) :
    pathGet ks (walkUpd fs row leafF t) =
      if fs.map row = ks then leafF (pathGet ks t) else pathGet ks t := by
  induction fs generalizing ks t with
  | nil =>
      rw [List.length_nil, List.length_eq_zero] at hlen
      subst hlen
      simp [walkUpd, pathGet]
  | cons f fs ih =>
      match ks with
      | [] => simp at hlen
      | k :: ks =>
          simp only [List.length_cons, Nat.succ.injEq] at hlen
          by_cases hk : row f = k
          · subst hk
            simp only [walkUpd, pathGet, lookup_upd, if_pos rfl, getObj,
              List.map_cons, List.cons.injEq, true_and]
            exact ih ks _ hlen
          · simp only [walkUpd, pathGet, lookup_upd, if_neg hk,
              List.map_cons]
            rw [if_neg]
            intro hcontra
            exact hk (List.cons.injEq _ _ _ _ ▸ hcontra).1

/- ## First-occurrence de-duplication -/

theorem mem_dedupF (l : List String) :
    ∀ seen y, y ∈ dedupF l seen ↔ y ∈ l ∧ y ∉ seen := by
  induction l with
  | nil => simp [dedupF]
  | cons x xs ih =>
      intro seen y
      by_cases hx : x ∈ seen <;> by_cases hyx : y = x <;>
        simp_all [dedupF, List.mem_cons, ih]

theorem nodup_dedupF (l : List String) : ∀ seen, (dedupF l seen).Nodup := by
  induction l with
  | nil => intro seen; simp [dedupF]
  | cons x xs ih =>
      intro seen
      by_cases hx : x ∈ seen
      · simpa [dedupF, if_pos hx] using ih seen
      · rw [dedupF, if_neg hx]
        refine List.Nodup.cons ?_ (ih (x :: seen))
        intro hc
        exact ((mem_dedupF xs (x :: seen) x).mp hc).2 (List.mem_cons_self x seen)

theorem dedupF_seen_congr (l : List String) :
    ∀ s₁ s₂, (∀ y, y ∈ s₁ ↔ y ∈ s₂) → dedupF l s₁ = dedupF l s₂ := by
  induction l with
  | nil => intro s₁ s₂ _; rfl
  | cons x xs ih =>
      intro s₁ s₂ hiff
      by_cases hx : x ∈ s₁
      · rw [dedupF, if_pos hx, dedupF, if_pos ((hiff x).mp hx)]
        exact ih s₁ s₂ hiff
      · rw [dedupF, if_neg hx, dedupF, if_neg (fun hc => hx ((hiff x).mpr hc))]
        refine congrArg _ (ih _ _ fun y => ?_)
        simp only [List.mem_cons, hiff y]

theorem dedupF_snoc (l : List String) :
    ∀ seen v, dedupF (l ++ [v]) seen =
      dedupF l seen ++ (if v ∈ seen ∨ v ∈ l then [] else [v]) := by
  induction l with
  | nil => intro seen v; by_cases hv : v ∈ seen <;> simp [dedupF, hv]
  | cons x xs ih =>
      intro seen v
      by_cases hx : x ∈ seen
      · rw [List.cons_append, dedupF, if_pos hx, ih, dedupF, if_pos hx]
        by_cases hvx : v = x <;> by_cases hv1 : v ∈ seen <;>
          by_cases hv2 : v ∈ xs <;> simp_all [List.mem_cons]
      · rw [List.cons_append, dedupF, if_neg hx, ih, dedupF, if_neg hx,
          List.cons_append]
        by_cases hvx : v = x
        · subst hvx
          simp [List.mem_cons]
        · by_cases hv1 : v ∈ seen <;> by_cases hv2 : v ∈ xs <;>
            simp_all [List.mem_cons]

/-- Folding `dAdd` (append-if-absent) produces exactly the first occurrences
that are not already present. -/
theorem foldl_dAdd (l : List String) :
    ∀ acc, l.foldl dAdd acc = acc ++ dedupF l acc := by
  induction l with
  | nil => intro acc; simp [dedupF]
  | cons x xs ih =>
      intro acc
      by_cases hx : x ∈ acc
      · rw [List.foldl_cons]
        show xs.foldl dAdd (dAdd acc x) = _
        rw [dAdd, if_pos hx, ih acc, dedupF, if_pos hx]
      · rw [List.foldl_cons]
        show xs.foldl dAdd (dAdd acc x) = _
        rw [dAdd, if_neg hx, ih (acc ++ [x]), dedupF, if_neg hx,
          List.append_assoc, List.singleton_append]
        refine congrArg _ (congrArg _ (dedupF_seen_congr xs _ _ fun y => ?_))
        simp [List.mem_append, List.mem_cons, or_comm]

/- ## C5: terminal arrays of the plain tree builder -/

theorem cjStep (fsPre : List String) (fm2 fm1 : String) (row : String → String)
    (t : PList) (ks : List String) (k : String)
    (hlen : ks.length = fsPre.length) :
    getArr ((pathGet ks (walkUpd fsPre row (cjLeaf fm2 fm1 row) t)).lookup k) =
      if fsPre.map row = ks ∧ row fm2 = k then
        dAdd (getArr ((pathGet ks t).lookup k)) (row fm1)
      else getArr ((pathGet ks t).lookup k) := by
  rw [pathGet_walkUpd _ _ _ _ _ hlen]
  by_cases hp : fsPre.map row = ks
  · rw [if_pos hp]
    by_cases hk : row fm2 = k
    · rw [if_pos ⟨hp, hk⟩]
      simp only [cjLeaf]
      rw [lookup_upd, if_pos hk]
      simp [getArr, dAdd, hk]
    · rw [if_neg fun hc => hk hc.2]
      simp only [cjLeaf]
      rw [lookup_upd, if_neg hk]
  · rw [if_neg hp, if_neg fun hc => hp hc.1]

theorem cj_fold_char (fsPre : List String) (fm2 fm1 : String)
    (rows : List (String → String)) :
    ∀ (t : PList) (ks : List String) (k : String), ks.length = fsPre.length →
      getArr ((pathGet ks
          (rows.foldl (fun t row => walkUpd fsPre row (cjLeaf fm2 fm1 row) t)
            t)).lookup k) =
        ((rows.filter fun r => decide (fsPre.map r = ks) && decide (r fm2 = k)).map
            fun r => r fm1).foldl dAdd
          (getArr ((pathGet ks t).lookup k)) := by
  induction rows with
  | nil => intro t ks k _; simp
  | cons r rows ih =>
      intro t ks k hlen
      rw [List.foldl_cons, ih _ _ _ hlen]
      by_cases hc : fsPre.map r = ks ∧ r fm2 = k
      · rw [List.filter_cons_of_pos (by simp [hc.1, hc.2]), List.map_cons,
          List.foldl_cons, cjStep _ _ _ _ _ _ _ hlen, if_pos hc]
      · rw [List.filter_cons_of_neg (by simpa using fun h1 h2 => hc ⟨h1, h2⟩),
          cjStep _ _ _ _ _ _ _ hlen, if_neg hc]

theorem okShL_upd (n : Nat) (t : PList) (k : String) (v : PTree)
    (ht : okShL n t = true) (hv : okShV n v = true) :
    okShL n (t.upd k v) = true := by
  induction t using PList.recP with
  | h0 => simp [PList.upd, okShL, hv]
  | h1 k₀ v₀ rest ih =>
      by_cases h : k₀ = k <;> simp_all [PList.upd, okShL]

theorem okShV_of_lookup (n : Nat) (t : PList) (k : String) (v : PTree)
    (ht : okShL n t = true) (hl : t.lookup k = some v) : okShV n v = true := by
  induction t using PList.recP with
  | h0 => simp [PList.lookup] at hl
  | h1 k₀ v₀ rest ih =>
      rw [okShL, Bool.and_eq_true] at ht
      rw [PList.lookup] at hl
      by_cases h : k₀ = k
      · rw [if_pos h] at hl
        exact (Option.some.injEq _ _ ▸ hl) ▸ ht.1
      · exact ih ht.2 (by simpa [if_neg h] using hl)

theorem okShL_walkUpd (fs : List String) (row : String → String)
    (leafF : PList → PList) (t : PList)
    (ht : okShL fs.length t = true)
    (hleaf : ∀ bd, okShL 0 bd = true → okShL 0 (leafF bd) = true) :
    okShL fs.length (walkUpd fs row leafF t) = true := by
  induction fs generalizing t with
  | nil => exact hleaf t ht
  | cons f fs ih =>
      show okShL (fs.length + 1) (t.upd (row f) (.obj _)) = true
      refine okShL_upd _ _ _ _ ht ?_
      show okShL fs.length (walkUpd fs row leafF (getObj (t.lookup (row f)))) = true
      refine ih _ ?_
      cases hl : t.lookup (row f) with
      | none => simp [getObj, okShL]
      | some v =>
          have hv := okShV_of_lookup _ _ _ _ ht hl
          cases v with
          | arr es => simp [okShV] at hv
          | obj es => simpa [getObj, okShV] using hv

theorem okShL_cjLeaf (fm2 fm1 : String) (row : String → String) (bd : PList)
    (hbd : okShL 0 bd = true) : okShL 0 (cjLeaf fm2 fm1 row bd) = true :=
  okShL_upd _ _ _ _ hbd rfl

theorem okShL_fold (fsPre : List String) (leafFor : (String → String) → PList → PList)
    (rows : List (String → String))
    (hleaf : ∀ row bd, okShL 0 bd = true → okShL 0 (leafFor row bd) = true) :
    ∀ t0, okShL fsPre.length t0 = true →
      okShL fsPre.length
        (rows.foldl (fun t row => walkUpd fsPre row (leafFor row) t) t0) = true := by
  induction rows with
  | nil => intro t0 h0; exact h0
  | cons r rows ih =>
      intro t0 h0
      rw [List.foldl_cons]
      exact ih _ (okShL_walkUpd _ _ _ _ h0 (hleaf r))

/-- C5 (claim): every terminal array of `construct_json`'s output — the
arrays sit exactly at mapping depth `D-2`, witnessed by the shape conjunct —
is duplicate-free and lists the corresponding column-`D-1` values of the
records that reach it, in first-occurrence order. -/
theorem construct_json_terminal_arrays (data : CsvData) (depth : Nat) :
    okShL ((data.fieldnames.take depth).take
        ((data.fieldnames.take depth).length - 2)).length
      (cjEntries data depth) = true ∧
    ∀ ks k es,
      ks.length = ((data.fieldnames.take depth).take
        ((data.fieldnames.take depth).length - 2)).length →
      (pathGet ks (cjEntries data depth)).lookup k = some (.arr es) →
      es.Nodup ∧ es = dedupF (cjSel data depth ks k) [] := by
  constructor
  · simp only [cjEntries]
    exact okShL_fold _ _ data.rows (fun row => okShL_cjLeaf _ _ row) .pnil rfl
  · intro ks k es hlen hl
    have hchar := cj_fold_char ((data.fieldnames.take depth).take
        ((data.fieldnames.take depth).length - 2))
      ((data.fieldnames.take depth).getD ((data.fieldnames.take depth).length - 2) "")
      ((data.fieldnames.take depth).getD ((data.fieldnames.take depth).length - 1) "")
      data.rows .pnil ks k hlen
    rw [pathGet_pnil] at hchar
    simp only [PList.lookup, getArr] at hchar
    rw [foldl_dAdd, List.nil_append] at hchar
    have hes : es = dedupF (cjSel data depth ks k) [] := by
      have : getArr ((pathGet ks (cjEntries data depth)).lookup k) = es := by
        rw [hl]; rfl
      rw [← this, cjEntries, cjSel]
      exact hchar
    exact ⟨hes ▸ nodup_dedupF _ _, hes⟩

/- ## C6: terminal arrays of the detailed tree builder -/

theorem dtStep (fsT : List String) (flast f2last : String)
    (row : String → String) (t : PList) (ks : List String) (yk : String)
    (hlen : ks.length = fsT.length) :
    getArr ((pathGet ks (walkUpd fsT row (dtLeaf flast f2last row) t)).lookup yk) =
      if fsT.map row = ks ∧ "Y" ++ row flast = yk then
        getArr ((pathGet ks t).lookup yk) ++ [row f2last]
      else getArr ((pathGet ks t).lookup yk) := by
  rw [pathGet_walkUpd _ _ _ _ _ hlen]
  by_cases hp : fsT.map row = ks
  · rw [if_pos hp]
    by_cases hk : "Y" ++ row flast = yk
    · rw [if_pos ⟨hp, hk⟩]
      simp only [dtLeaf]
      rw [lookup_upd, if_pos hk]
      simp [getArr, hk]
    · rw [if_neg fun hc => hk hc.2]
      simp only [dtLeaf]
      rw [lookup_upd, if_neg hk]
  · rw [if_neg hp, if_neg fun hc => hp hc.1]

theorem dt_fold_char (fsT : List String) (flast f2last : String)
    (rows : List (String → String)) :
    ∀ (t : PList) (ks : List String) (yk : String), ks.length = fsT.length →
      getArr ((pathGet ks
          (rows.foldl (fun t row => walkUpd fsT row (dtLeaf flast f2last row) t)
            t)).lookup yk) =
        getArr ((pathGet ks t).lookup yk) ++
          ((rows.filter fun r =>
              decide (fsT.map r = ks) && decide ("Y" ++ r flast = yk)).map
            fun r => r f2last) := by
  induction rows with
  | nil => intro t ks yk _; simp
  | cons r rows ih =>
      intro t ks yk hlen
      rw [List.foldl_cons, ih _ _ _ hlen]
      by_cases hc : fsT.map r = ks ∧ "Y" ++ r flast = yk
      · rw [List.filter_cons_of_pos (by simp [hc.1, hc.2]), List.map_cons,
          dtStep _ _ _ _ _ _ _ hlen, if_pos hc, List.append_assoc,
          List.singleton_append]
      · rw [List.filter_cons_of_neg (by simpa using fun h1 h2 => hc ⟨h1, h2⟩),
          dtStep _ _ _ _ _ _ _ hlen, if_neg hc]

theorem okShL_dtLeaf (flast f2last : String) (row : String → String)
    (bd : PList) (hbd : okShL 0 bd = true) :
    okShL 0 (dtLeaf flast f2last row bd) = true :=
  okShL_upd _ _ _ _ hbd rfl

/-- C6 (claim): `detailed_tree` appends the second-to-last column's value to
the leaf array under `"Y<last column>"` unconditionally, once per record — a
terminal array lists exactly the (possibly duplicated) values of the records
that reach it, in record order, with no de-duplication. -/
theorem detailed_tree_terminal_arrays (data : CsvData) (depth : Nat) :
    okShL (data.fieldnames.take depth).length (dtEntries data depth) = true ∧
    ∀ ks yk es, ks.length = (data.fieldnames.take depth).length →
      (pathGet ks (dtEntries data depth)).lookup yk = some (.arr es) →
      es = dtSel data depth ks yk := by
  constructor
  · simp only [dtEntries]
    exact okShL_fold _ _ data.rows (fun row => okShL_dtLeaf _ _ row) .pnil rfl
  · intro ks yk es hlen hl
    have hchar := dt_fold_char (data.fieldnames.take depth)
      (data.fieldnames.getD (data.fieldnames.length - 1) "")
      (data.fieldnames.getD (data.fieldnames.length - 2) "")
      data.rows .pnil ks yk hlen
    rw [pathGet_pnil] at hchar
    simp only [PList.lookup, getArr, List.nil_append] at hchar
    have : getArr ((pathGet ks (dtEntries data depth)).lookup yk) = es := by
      rw [hl]; rfl
    rw [← this, dtEntries, dtSel]
    exact hchar

/- ## C10: `construct_json` reads only the first `depth` columns -/

theorem getD_mem_of_lt {α : Type} (l : List α) (n : Nat) (d : α)
    (h : n < l.length) : l.getD n d ∈ l := by
  induction l generalizing n with
  | nil => simp at h
  | cons x xs ih =>
      cases n with
      | zero => simp [List.getD_cons_zero]
      | succ m =>
          rw [List.getD_cons_succ]
          exact List.mem_cons_of_mem _ (ih m (by simpa using h))

theorem walkUpd_congr_row (fs : List String) (row₁ row₂ : String → String)
    (leafF₁ leafF₂ : PList → PList)
    (hrow : ∀ f ∈ fs, row₁ f = row₂ f)
    (hleaf : ∀ bd, leafF₁ bd = leafF₂ bd) :
    ∀ t, walkUpd fs row₁ leafF₁ t = walkUpd fs row₂ leafF₂ t := by
  induction fs with
  | nil => intro t; exact hleaf t
  | cons f fs ih =>
      intro t
      have hf : row₁ f = row₂ f := hrow f (List.mem_cons_self f fs)
      simp only [walkUpd]
      rw [hf, ih (fun g hg => hrow g (List.mem_cons_of_mem _ hg))]

theorem cj_fold_congr (L : List String) (rows₁ rows₂ : List (String → String))
    (h2 : 2 ≤ L.length)
    (hr : List.Forall₂ (fun r₁ r₂ => ∀ f ∈ L, r₁ f = r₂ f) rows₁ rows₂) :
    ∀ t, rows₁.foldl (fun t row => walkUpd (L.take (L.length - 2)) row
        (cjLeaf (L.getD (L.length - 2) "") (L.getD (L.length - 1) "") row) t) t =
      rows₂.foldl (fun t row => walkUpd (L.take (L.length - 2)) row
        (cjLeaf (L.getD (L.length - 2) "") (L.getD (L.length - 1) "") row) t) t := by
  have hpre : ∀ f ∈ L.take (L.length - 2), f ∈ L :=
    fun f hf => List.take_subset _ _ hf
  have hm2 : L.getD (L.length - 2) "" ∈ L := getD_mem_of_lt _ _ _ (by omega)
  have hm1 : L.getD (L.length - 1) "" ∈ L := getD_mem_of_lt _ _ _ (by omega)
  induction hr with
  | nil => intro t; rfl
  | @cons r₁ r₂ l₁ l₂ hhead _ ih =>
      intro t
      simp only [List.foldl_cons]
      have hleaf : ∀ bd,
          cjLeaf (L.getD (L.length - 2) "") (L.getD (L.length - 1) "") r₁ bd =
          cjLeaf (L.getD (L.length - 2) "") (L.getD (L.length - 1) "") r₂ bd :=
        fun bd => by
          simp only [cjLeaf]
          rw [hhead _ hm2, hhead _ hm1]
      rw [walkUpd_congr_row _ r₁ r₂
        (cjLeaf (L.getD (L.length - 2) "") (L.getD (L.length - 1) "") r₁)
        (cjLeaf (L.getD (L.length - 2) "") (L.getD (L.length - 1) "") r₂)
        (fun f hf => hhead f (hpre f hf)) hleaf]
      exact ih _

/-- C10 (claim): `construct_json`'s output depends only on the first `depth`
column names and the records' values in those columns; values in all later
columns never influence the result. -/
theorem construct_json_reads_only_first_columns (d₁ d₂ : CsvData) (depth : Nat)
    (h2 : 2 ≤ (d₁.fieldnames.take depth).length)
    (hf : d₁.fieldnames.take depth = d₂.fieldnames.take depth)
    (hr : List.Forall₂
      (fun r₁ r₂ => ∀ f ∈ d₁.fieldnames.take depth, r₁ f = r₂ f)
      d₁.rows d₂.rows) :
    construct_json d₁ depth = construct_json d₂ depth := by
  unfold construct_json cjEntries
  rw [← hf]
  congr 1
  exact cj_fold_congr (d₁.fieldnames.take depth) d₁.rows d₂.rows h2 hr .pnil

/- ## C1: the three builders on a header-only input -/

/-- C1 counterexample: on a header-only input (no records) the year-level
builder does not return the empty mapping — it returns `{"All levels": ""}`. -/
theorem empty_input_not_all_empty :
    construct_with_yl ⟨exFields, []⟩ ≠ ([] : List (YKey × YVal)) := by
  intro h
  have h2 : [(YKey.ks ("All levels"), YVal.vstr (""))] = ([] : List (YKey × YVal)) := h
  exact List.cons_ne_nil _ _ h2

/-- C1 (amended): with an empty record sequence, `construct_json` (depth 4)
and `detailed_tree` (depth 4) return the empty mapping, while
`construct_with_yl` returns the one-entry mapping `{"All levels": ""}` — its
summary loop always inserts the "All levels" key, here with an empty joined
string. -/
theorem empty_input_builders (fieldnames : List String) :
    construct_json ⟨fieldnames, []⟩ 4 = .obj .pnil ∧
    detailed_tree ⟨fieldnames, []⟩ 4 = .obj .pnil ∧
    construct_with_yl ⟨fieldnames, []⟩ =
      [(YKey.ks ("All levels"), YVal.vstr (""))] :=
  ⟨rfl, rfl, rfl⟩

theorem construct_json_terminal_arrays_witness :
    (["q", "r"] : List String).Nodup ∧
    ["q", "r"] = dedupF (cjSel exData 4 ["x", "y"] "p") [] :=
  (construct_json_terminal_arrays exData 4).2 ["x", "y"] "p" ["q", "r"]
    (by decide) (by decide)

theorem detailed_tree_terminal_arrays_witness :
    (["q", "q"] : List String) = dtSel exDup 4 ["x", "y", "p", "q"] "Y5" :=
  (detailed_tree_terminal_arrays exDup 4).2 ["x", "y", "p", "q"] "Y5" ["q", "q"]
    (by decide) (by decide)

theorem construct_json_reads_only_columns_witness :
    construct_json exData 4 = construct_json exDataB 4 :=
  construct_json_reads_only_first_columns exData exDataB 4 (by decide) (by decide)
    (List.Forall₂.cons (by decide) (List.Forall₂.cons (by decide) List.Forall₂.nil))


/- ## C2: shape of the year-level tree's second-level array elements -/

theorem mem_yupd (l : List (YKey × YVal)) (k : YKey) (v : YVal) :
    ∀ p ∈ yupd l k v, p ∈ l ∨ p = (k, v) := by
  induction l with
  | nil => intro p hp; simp [yupd] at hp; exact Or.inr hp
  | cons q rest ih =>
      intro p hp
      rw [show q = (q.1, q.2) from rfl, yupd] at hp
      by_cases h : q.1 = k
      · rw [if_pos h] at hp
        rcases List.mem_cons.mp hp with h1 | h1
        · right; rw [h1, h]
        · exact Or.inl (List.mem_cons_of_mem _ h1)
      · rw [if_neg h] at hp
        rcases List.mem_cons.mp hp with h1 | h1
        · exact Or.inl (h1 ▸ List.mem_cons_self _ _)
        · rcases ih p h1 with h2 | h2
          · exact Or.inl (List.mem_cons_of_mem _ h2)
          · exact Or.inr h2

theorem ylookup_mem (l : List (YKey × YVal)) (k : YKey) (v : YVal)
    (h : ylookup l k = some v) : (k, v) ∈ l := by
  induction l with
  | nil => simp [ylookup] at h
  | cons q rest ih =>
      rw [show q = (q.1, q.2) from rfl, ylookup] at h
      by_cases hq : q.1 = k
      · rw [if_pos hq] at h
        injection h with h
        rw [← hq, ← h]
        exact List.mem_cons_self _ _
      · rw [if_neg hq] at h
        exact List.mem_cons_of_mem _ (ih h)

theorem ylookup_isSome_mem (l : List (YKey × YVal)) (k : YKey)
    (h : (ylookup l k).isSome = true) : k ∈ l.map Prod.fst := by
  cases hl : ylookup l k with
  | none => rw [hl] at h; simp at h
  | some v => exact List.mem_map_of_mem Prod.fst (ylookup_mem _ _ _ hl)

theorem yupd_append_fresh (l : List (YKey × YVal)) (k : YKey) (v : YVal)
    (h : k ∉ l.map Prod.fst) : yupd l k v = l ++ [(k, v)] := by
  induction l with
  | nil => rfl
  | cons q rest ih =>
      rw [show q = (q.1, q.2) from rfl, yupd, if_neg, List.cons_append,
        ih fun hc => h (List.mem_cons_of_mem _ hc)]
      intro hc
      exact h (hc ▸ List.mem_cons_self _ _)

theorem yupd_head (k : YKey) (v₀ v : YVal) (rest : List (YKey × YVal)) :
    yupd ((k, v₀) :: rest) k v = (k, v) :: rest := by
  rw [yupd, if_pos rfl]

theorem findTopicIdxFrom_spec (l : List YVal) (t : String) :
    ∀ i acc j, findTopicIdxFrom l t i acc = some j →
      acc = some j ∨ ∃ d, d < l.length ∧ j = i + d ∧
        ∃ es, l.getD d (.vobj []) = .vobj es ∧ (ylookup es (.ks t)).isSome = true := by
  induction l with
  | nil => intro i acc j h; exact Or.inl h
  | cons v rest ih =>
      intro i acc j h
      have lift : ∀ acc', findTopicIdxFrom rest t (i + 1) acc' = some j →
          acc' = some j ∨ ∃ d, d < (v :: rest).length ∧ j = i + d ∧
            ∃ es, (v :: rest).getD d (.vobj []) = .vobj es ∧
              (ylookup es (.ks t)).isSome = true := by
        intro acc' h'
        rcases ih (i + 1) acc' j h' with h1 | ⟨d, hd, hj, es, hes, hsome⟩
        · exact Or.inl h1
        · exact Or.inr ⟨d + 1, by simpa using hd, by omega,
            es, by simpa [List.getD_cons_succ] using hes, hsome⟩
      cases v with
      | vstr s => exact lift acc h
      | varr es2 => exact lift acc h
      | vobj es =>
          replace h : findTopicIdxFrom rest t (i + 1)
              (if (ylookup es (.ks t)).isSome = true then some i else acc) =
              some j := h
          rcases lift _ h with h1 | h1
          · by_cases hf : (ylookup es (.ks t)).isSome = true
            · rw [if_pos hf] at h1
              injection h1 with h1
              exact Or.inr ⟨0, by simp, by omega, es, rfl, hf⟩
            · rw [if_neg hf] at h1
              exact Or.inl h1
          · exact Or.inr h1

theorem getD_snoc_length {α : Type} (l : List α) (x d : α) :
    (l ++ [x]).getD l.length d = x := by
  induction l with
  | nil => rfl
  | cons y ys ih => simp [List.getD_cons_succ, ih]

theorem elemShape_step (t : String) (v : YVal) (nums : List (YKey × YVal))
    (entry : String) (inner1 : List (YKey × YVal))
    (hsh : nums.map Prod.fst = (List.range nums.length).map fun i => YKey.kn (i + 1)) :
    ElemShape (.vobj (yupd (yupd ((YKey.ks t, v) :: nums)
      (.kn ((YKey.ks t, v) :: nums).length) (.vstr entry)) (.ks t) (.vobj inner1))) := by
  have hfresh : YKey.kn ((YKey.ks t, v) :: nums).length ∉
      ((YKey.ks t, v) :: nums).map Prod.fst := by
    intro hc
    rw [List.map_cons] at hc
    rcases List.mem_cons.mp hc with h | h
    · exact YKey.noConfusion h
    · rw [hsh] at h
      rcases List.mem_map.mp h with ⟨i, hi, heq⟩
      rw [List.mem_range] at hi
      have heq' : YKey.kn (i + 1) = YKey.kn ((YKey.ks t, v) :: nums).length := heq
      injection heq' with heq'
      simp only [List.length_cons] at heq'
      omega
  rw [yupd_append_fresh _ _ _ hfresh, List.cons_append, yupd_head]
  refine ⟨t, .vobj inner1,
    nums ++ [(.kn ((YKey.ks t, v) :: nums).length, .vstr entry)], rfl, ?_⟩
  rw [List.map_append, hsh, List.length_append]
  simp [List.range_succ]

theorem YInv_step (out : List (YKey × YVal)) (v0 v1 t entry : String)
    (inner1 d0 : List (YKey × YVal)) (arr0 arr1 : List YVal) (idx : Nat)
    (elem elem1 elem2 : List (YKey × YVal))
    (hd0 : d0 = getYObj (ylookup out (.ks v0)))
    (harr0 : arr0 = getYArr (ylookup d0 (.ks v1)))
    (harr1 : arr1 = (match findTopicIdx arr0 t with
      | some _ => arr0
      | none => arr0 ++ [YVal.vobj [(YKey.ks t, YVal.vobj [])]]))
    (hidx : idx = (match findTopicIdx arr0 t with
      | some i => i
      | none => arr1.length - 1))
    (helem : elem = getYObj (some (arr1.getD idx (.vobj []))))
    (helem1 : elem1 = yupd elem (.kn elem.length) (.vstr entry))
    (helem2 : elem2 = yupd elem1 (.ks t) (.vobj inner1))
    (hinv : YInv out) :
    YInv (yupd out (.ks v0)
      (.vobj (yupd d0 (.ks v1) (.varr (arr1.set idx (.vobj elem2)))))) := by
  have harr0mem : ∀ e ∈ arr0, ElemShape e := by
    intro e he0
    cases hl1 : ylookup d0 (.ks v1) with
    | none => rw [harr0, hl1] at he0; simp [getYArr] at he0
    | some w1 =>
        cases hl0 : ylookup out (.ks v0) with
        | none =>
            rw [hd0, hl0] at hl1
            simp [getYObj, ylookup] at hl1
        | some w =>
            refine hinv (.ks v0, w) (ylookup_mem _ _ _ hl0) (.ks v1, w1) ?_ e ?_
            · show (YKey.ks v1, w1) ∈ entriesOf w
              have hw : d0 = entriesOf w := by rw [hd0, hl0]; rfl
              exact ylookup_mem _ _ _ (hw ▸ hl1)
            · show e ∈ elemsOf w1
              rw [harr0, hl1] at he0
              exact he0
  have hshape : ∃ v nums, elem = (YKey.ks t, v) :: nums ∧
      nums.map Prod.fst = (List.range nums.length).map fun i => YKey.kn (i + 1) := by
    cases hf : findTopicIdx arr0 t with
    | none =>
        have harr1' : arr1 = arr0 ++ [YVal.vobj [(YKey.ks t, YVal.vobj [])]] := by
          rw [harr1, hf]
        have hidx' : idx = arr0.length := by
          rw [hidx, hf, harr1', List.length_append]
          simp
        refine ⟨.vobj [], [], ?_, by simp⟩
        rw [helem, harr1', hidx', getD_snoc_length]
        rfl
    | some j =>
        rcases findTopicIdxFrom_spec arr0 t 0 none j hf with h1 | ⟨d, hd, hj, es, hes, hsome⟩
        · exact absurd h1 (by simp)
        · have hj' : j = d := by omega
          have harr1' : arr1 = arr0 := by rw [harr1, hf]
          have hidx' : idx = j := by rw [hidx, hf]
          have helem' : elem = es := by rw [helem, harr1', hidx', hj', hes]; rfl
          have hmem : YVal.vobj es ∈ arr0 := by
            rw [← hes]
            exact getD_mem_of_lt _ _ _ hd
          rcases harr0mem _ hmem with ⟨t₀, v, nums, hesq, hsh⟩
          injection hesq with hesq
          have hks : YKey.ks t ∈ es.map Prod.fst := ylookup_isSome_mem _ _ hsome
          rw [hesq, List.map_cons] at hks
          rcases List.mem_cons.mp hks with hh | hh
          · injection hh with hh
            refine ⟨v, nums, ?_, hsh⟩
            rw [helem', hesq, hh]
          · rw [hsh] at hh
            rcases List.mem_map.mp hh with ⟨i, _, heq⟩
            exact absurd heq (by simp)
  rcases hshape with ⟨v, nums, helemq, hsh⟩
  have hshape2 : ElemShape (.vobj elem2) := by
    rw [helem2, helem1, helemq]
    exact elemShape_step t v nums entry inner1 hsh
  intro p₁ hp₁ p₂ hp₂ e he
  rcases mem_yupd _ _ _ p₁ hp₁ with h1 | h1
  · exact hinv p₁ h1 p₂ hp₂ e he
  · subst h1
    replace hp₂ : p₂ ∈ yupd d0 (.ks v1) (.varr (arr1.set idx (.vobj elem2))) := hp₂
    rcases mem_yupd _ _ _ p₂ hp₂ with h2 | h2
    · cases hl0 : ylookup out (.ks v0) with
      | none => rw [hd0, hl0] at h2; simp [getYObj] at h2
      | some w =>
          refine hinv (.ks v0, w) (ylookup_mem _ _ _ hl0) p₂ ?_ e he
          have hw : d0 = entriesOf w := by rw [hd0, hl0]; rfl
          exact hw ▸ h2
    · subst h2
      replace he : e ∈ arr1.set idx (.vobj elem2) := he
      rcases List.mem_or_eq_of_mem_set he with h3 | h3
      · cases hf : findTopicIdx arr0 t with
        | some j =>
            rw [harr1, hf] at h3
            exact harr0mem e h3
        | none =>
            rw [harr1, hf] at h3
            rcases List.mem_append.mp h3 with h4 | h4
            · exact harr0mem e h4
            · rw [List.mem_singleton.mp h4]
              exact ⟨t, .vobj [], [], rfl, by simp⟩
      · rw [h3]
        exact hshape2

theorem YInv_ywlRow (all_fields : List String) (row : String → String)
    (out : List (YKey × YVal)) (yld : List (String × List String))
    (hinv : YInv out) : YInv (ywlRow all_fields row out yld).1 := by
  simp only [ywlRow]
  exact YInv_step out _ _ _ _ _ _ _ _ _ _ _ _
    rfl rfl rfl rfl rfl rfl rfl hinv

theorem YInv_summary (yld : List (String × List String)) :
    ∀ out, YInv out →
      YInv (yld.foldl
        (fun out p => yupd out (.ks p.1) (.vstr (joinSpace (sortStr p.2)))) out) := by
  induction yld with
  | nil => intro out h; exact h
  | cons q rest ih =>
      intro out h
      rw [List.foldl_cons]
      refine ih _ ?_
      intro p₁ hp₁ p₂ hp₂ e he
      rcases mem_yupd _ _ _ p₁ hp₁ with h1 | h1
      · exact h p₁ h1 p₂ hp₂ e he
      · rw [h1] at hp₂
        simp [entriesOf, getYObj] at hp₂

theorem YInv_rows (all_fields : List String) (rows : List (String → String)) :
    ∀ st : List (YKey × YVal) × List (String × List String), YInv st.1 →
      YInv (rows.foldl (fun st row => ywlRow all_fields row st.1 st.2) st).1 := by
  induction rows with
  | nil => intro st h; exact h
  | cons r rows ih =>
      intro st h
      rw [List.foldl_cons]
      exact ih _ (YInv_ywlRow _ _ _ _ h)

/-- C2 (amended): in the Year-Level Tree Builder's output every element of a
second-level array is a mapping whose first key is the topic string and whose
remaining keys are the numeric serials `1, 2, …, m` in insertion order — the
per-record serial entry is inserted into the element mapping itself, beside
the topic key (not into the topic's inner mapping), under a numeric key equal
to the element mapping's size at insertion time, counting the topic key; the
element is therefore single-key only until the first record's entry lands. -/
theorem construct_with_yl_element_shape (data : CsvData) :
    ∀ p₁ ∈ construct_with_yl data, ∀ p₂ ∈ entriesOf p₁.2,
      ∀ e ∈ elemsOf p₂.2, ElemShape e := by
  show YInv (construct_with_yl data)
  simp only [construct_with_yl]
  refine YInv_summary _ _ (YInv_rows _ _ _ ?_)
  intro p hp
  simp at hp

/-- C2 counterexample: after one record the (unique) element of the
second-level array has two keys — the topic `"q"` and the numeric serial
`1` holding `"Y5 q"` — so it is not a single-key mapping, and the serial
entry sits beside the topic key rather than inside the topic's inner
mapping (which holds `{"5": "1"}` instead). -/
theorem ywl_element_not_single_key :
    construct_with_yl ⟨exFields, [exRow "x" "y" "p" "q" "5"]⟩ =
      [(.ks "x", .vobj [(.ks "y", .varr
        [.vobj [(.ks "q", .vobj [(.ks "5", .vstr "1")]), (.kn 1, .vstr "Y5 q")]])]),
       (.ks "All levels", .vstr "Y5"), (.ks "y", .vstr "Y5")] ∧
    ([(YKey.ks "q", YVal.vobj [(YKey.ks "5", YVal.vstr "1")]),
      (YKey.kn 1, YVal.vstr "Y5 q")].length = 1 → False) :=
  ⟨rfl, by decide⟩

theorem construct_with_yl_element_shape_witness :
    ElemShape (.vobj [(YKey.ks "q", YVal.vobj [(YKey.ks "5", YVal.vstr "1")]),
      (YKey.kn 1, YVal.vstr "Y5 q")]) := by
  have h := construct_with_yl_element_shape
    ⟨exFields, [exRow "x" "y" "p" "q" "5"]⟩
    (YKey.ks "x", YVal.vobj [(YKey.ks "y", YVal.varr
      [YVal.vobj [(YKey.ks "q", YVal.vobj [(YKey.ks "5", YVal.vstr "1")]),
        (YKey.kn 1, YVal.vstr "Y5 q")]])])
    (List.mem_cons_self _ _)
    (YKey.ks "y", YVal.varr
      [YVal.vobj [(YKey.ks "q", YVal.vobj [(YKey.ks "5", YVal.vstr "1")]),
        (YKey.kn 1, YVal.vstr "Y5 q")]])
    (List.mem_cons_self _ _)
    (YVal.vobj [(YKey.ks "q", YVal.vobj [(YKey.ks "5", YVal.vstr "1")]),
      (YKey.kn 1, YVal.vstr "Y5 q")])
    (List.mem_cons_self _ _)
  exact h

/- ## C7: the "All levels" summary entry -/

theorem addTok_idem (s : List String) (v : String) :
    addTok (addTok s v) v = addTok s v := by
  have hv : v ∈ addTok s v := by
    rw [addTok]
    by_cases h : v ∈ s
    · rw [if_pos h]; exact h
    · rw [if_neg h]; simp
  show (if v ∈ addTok s v then addTok s v else addTok s v ++ [v]) = addTok s v
  rw [if_pos hv]

theorem addTok_dedupF (l : List String) (v : String) :
    addTok (dedupF l []) v = dedupF (l ++ [v]) [] := by
  rw [dedupF_snoc, addTok]
  by_cases hv : v ∈ l
  · rw [if_pos ((mem_dedupF l [] v).mpr ⟨hv, by simp⟩), if_pos (Or.inr hv),
      List.append_nil]
  · rw [if_neg (fun hc => hv ((mem_dedupF l [] v).mp hc).1),
      if_neg (by simp [hv])]

theorem lookup_cons_sd (q : String × List String)
    (rest : List (String × List String)) (a : String) :
    List.lookup a (q :: rest) = if q.1 = a then some q.2 else List.lookup a rest := by
  rw [show q = (q.1, q.2) from rfl, List.lookup]
  by_cases h : q.1 = a
  · simp [h]
  · have h2 : (a == q.1) = false := by
      rw [beq_eq_false_iff_ne]
      exact fun hc => h hc.symm
    simp [h, h2]

theorem lookup_sdAdd (yld : List (String × List String)) (k tok a : String) :
    List.lookup a (sdAdd yld k tok) =
      if a = k then (List.lookup a yld).map (fun s => addTok s tok)
      else List.lookup a yld := by
  induction yld with
  | nil => by_cases h : a = k <;> simp [sdAdd, List.lookup, h]
  | cons q rest ih =>
      have hmap : sdAdd (q :: rest) k tok =
          (if q.1 = k then (q.1, addTok q.2 tok) else q) :: sdAdd rest k tok := by
        simp only [sdAdd, List.map_cons]
      rw [hmap]
      by_cases hqk : q.1 = k
      · rw [if_pos hqk, lookup_cons_sd, lookup_cons_sd]
        by_cases hqa : q.1 = a <;> by_cases hak : a = k <;> simp_all [ih]
      · rw [if_neg hqk, lookup_cons_sd, lookup_cons_sd]
        by_cases hqa : q.1 = a <;> by_cases hak : a = k <;> simp_all [ih]

theorem keys_sdAdd (yld : List (String × List String)) (k tok : String) :
    (sdAdd yld k tok).map Prod.fst = yld.map Prod.fst := by
  induction yld with
  | nil => rfl
  | cons q rest ih =>
      have hmap : sdAdd (q :: rest) k tok =
          (if q.1 = k then (q.1, addTok q.2 tok) else q) :: sdAdd rest k tok := by
        simp only [sdAdd, List.map_cons]
      rw [hmap, List.map_cons, ih]
      by_cases h : q.1 = k <;> simp [h]

theorem lookup_none_not_mem (yld : List (String × List String)) (a : String)
    (h : List.lookup a yld = none) : a ∉ yld.map Prod.fst := by
  induction yld with
  | nil => simp
  | cons q rest ih =>
      rw [lookup_cons_sd] at h
      by_cases hq : q.1 = a
      · rw [if_pos hq] at h
        exact absurd h (by simp)
      · rw [if_neg hq] at h
        simp only [List.map_cons, List.mem_cons]
        rintro (h1 | h1)
        · exact hq h1.symm
        · exact ih h h1

theorem lookup_append_some (l₁ l₂ : List (String × List String)) (a : String)
    (v : List String) (h : List.lookup a l₁ = some v) :
    List.lookup a (l₁ ++ l₂) = some v := by
  induction l₁ with
  | nil => simp [List.lookup] at h
  | cons q rest ih =>
      rw [lookup_cons_sd] at h
      rw [List.cons_append, lookup_cons_sd]
      by_cases hq : q.1 = a
      · rw [if_pos hq] at h ⊢
        exact h
      · rw [if_neg hq] at h ⊢
        exact ih h

theorem yld_step (yld : List (String × List String)) (sub tok : String)
    (S : List String) (hAL : List.lookup "All levels" yld = some S)
    (hnd : (yld.map Prod.fst).Nodup) :
    List.lookup "All levels"
        (sdAdd (sdAdd (sdEnsure yld sub) sub tok) "All levels" tok) =
      some (addTok S tok) ∧
    ((sdAdd (sdAdd (sdEnsure yld sub) sub tok) "All levels" tok).map
      Prod.fst).Nodup := by
  have hens : List.lookup "All levels" (sdEnsure yld sub) = some S := by
    rw [sdEnsure]
    by_cases h : (List.lookup sub yld).isSome = true
    · rw [if_pos h]; exact hAL
    · rw [if_neg h]; exact lookup_append_some _ _ _ _ hAL
  have hkeys : ((sdEnsure yld sub).map Prod.fst).Nodup := by
    rw [sdEnsure]
    by_cases h : (List.lookup sub yld).isSome = true
    · rw [if_pos h]; exact hnd
    · rw [if_neg h, List.map_append]
      refine List.Nodup.append hnd (by simp) ?_
      intro a ha hb
      simp only [List.map_cons, List.map_nil, List.mem_singleton] at hb
      subst hb
      have hnone : List.lookup a yld = none := by
        cases hc : List.lookup a yld with
        | none => rfl
        | some w => rw [hc] at h; simp at h
      exact lookup_none_not_mem _ _ hnone ha
  constructor
  · rw [lookup_sdAdd, if_pos rfl, lookup_sdAdd]
    by_cases hs : ("All levels" : String) = sub
    · rw [if_pos hs, hens]
      simp [addTok_idem]
    · rw [if_neg hs, hens]
      rfl
  · rw [keys_sdAdd, keys_sdAdd]
    exact hkeys

theorem ylookup_yupd (l : List (YKey × YVal)) (k : YKey) (v : YVal) (k' : YKey) :
    ylookup (yupd l k v) k' = if k = k' then some v else ylookup l k' := by
  induction l with
  | nil => by_cases h : k = k' <;> simp [yupd, ylookup, h]
  | cons q rest ih =>
      rw [show q = (q.1, q.2) from rfl, yupd]
      by_cases h0 : q.1 = k
      · subst h0
        by_cases h : q.1 = k' <;> simp [ylookup, h]
      · by_cases h : q.1 = k' <;> by_cases hk : k = k' <;>
          simp_all [ylookup, h0, h, ih]

theorem ywl_fold_yld (all_fields : List String) (rows : List (String → String)) :
    ∀ (st : List (YKey × YVal) × List (String × List String)) (toks : List String),
      List.lookup "All levels" st.2 = some (dedupF toks []) →
      (st.2.map Prod.fst).Nodup →
      List.lookup "All levels"
          ((rows.foldl (fun st row => ywlRow all_fields row st.1 st.2) st).2) =
        some (dedupF (toks ++ rows.map fun r =>
          "Y" ++ r (all_fields.getD (all_fields.length - 1) "")) []) ∧
      (((rows.foldl (fun st row => ywlRow all_fields row st.1 st.2) st).2).map
        Prod.fst).Nodup := by
  induction rows with
  | nil =>
      intro st toks h1 h2
      constructor
      · simpa using h1
      · simpa using h2
  | cons r rows ih =>
      intro st toks h1 h2
      rw [List.foldl_cons]
      have hstep := yld_step st.2 (r (all_fields.getD 1 ""))
        ("Y" ++ r (all_fields.getD (all_fields.length - 1) ""))
        (dedupF toks []) h1 h2
      rw [addTok_dedupF] at hstep
      have h2' : (ywlRow all_fields r st.1 st.2).2 =
          sdAdd (sdAdd (sdEnsure st.2 (r (all_fields.getD 1 "")))
            (r (all_fields.getD 1 ""))
            ("Y" ++ r (all_fields.getD (all_fields.length - 1) "")))
            "All levels" ("Y" ++ r (all_fields.getD (all_fields.length - 1) "")) := rfl
      have hrec := ih (ywlRow all_fields r st.1 st.2)
        (toks ++ ["Y" ++ r (all_fields.getD (all_fields.length - 1) "")])
        (by rw [h2']; exact hstep.1) (by rw [h2']; exact hstep.2)
      simpa [List.append_assoc] using hrec

theorem summary_fold_preserve (rest : List (String × List String)) :
    ∀ out (k : String), k ∉ rest.map Prod.fst →
      ylookup (rest.foldl
        (fun out p => yupd out (.ks p.1) (.vstr (joinSpace (sortStr p.2)))) out)
        (.ks k) = ylookup out (.ks k) := by
  induction rest with
  | nil => intro out k _; rfl
  | cons q rs ih =>
      intro out k hk
      rw [List.foldl_cons, ih _ _ (fun hc => hk (List.mem_cons_of_mem _ hc)),
        ylookup_yupd, if_neg]
      intro hc
      injection hc with hc
      exact hk (by rw [List.map_cons]; exact hc ▸ List.mem_cons_self _ _)

theorem ylookup_summary_fold (yld : List (String × List String)) :
    ∀ out (k : String) (v : List String), (yld.map Prod.fst).Nodup →
      List.lookup k yld = some v →
      ylookup (yld.foldl
        (fun out p => yupd out (.ks p.1) (.vstr (joinSpace (sortStr p.2)))) out)
        (.ks k) = some (.vstr (joinSpace (sortStr v))) := by
  induction yld with
  | nil => intro out k v _ h; simp [List.lookup] at h
  | cons q rest ih =>
      intro out k v hnd h
      rw [lookup_cons_sd] at h
      rw [List.map_cons, List.nodup_cons] at hnd
      rw [List.foldl_cons]
      by_cases hq : q.1 = k
      · rw [if_pos hq] at h
        injection h with h
        rw [summary_fold_preserve rest _ k (hq ▸ hnd.1), ylookup_yupd,
          if_pos (by rw [hq]), h]
      · rw [if_neg hq] at h
        exact ih _ k v hnd.2 h

/-- C7 (claim): the "All levels" entry of `construct_with_yl`'s output is the
space-joined, lexicographically-ascending-sorted list of the distinct tokens
`"Y<year level>"` over all records: the joined list is sorted, duplicate-free,
and holds exactly the records' tokens. -/
theorem ywl_all_levels_summary (data : CsvData)
    (_h5 : 5 ≤ data.fieldnames.length) :
    ylookup (construct_with_yl data) (.ks "All levels") =
      some (.vstr (joinSpace (sortStr (dedupF (ylTokens data) [])))) ∧
    List.Sorted (fun a b : String => a ≤ b) (sortStr (dedupF (ylTokens data) [])) ∧
    (sortStr (dedupF (ylTokens data) [])).Nodup ∧
    (∀ tok, tok ∈ sortStr (dedupF (ylTokens data) []) ↔ tok ∈ ylTokens data) := by
  have hfold := ywl_fold_yld data.fieldnames data.rows
    (([] : List (YKey × YVal)), [("All levels", ([] : List String))]) []
    (by decide) (by decide)
  refine ⟨?_, ?_, ?_, ?_⟩
  · simp only [construct_with_yl]
    exact ylookup_summary_fold _ _ _ _ hfold.2 (by simpa [ylTokens] using hfold.1)
  · exact List.sorted_insertionSort _ _
  · exact ((List.perm_insertionSort _ _).nodup_iff).mpr (nodup_dedupF _ _)
  · intro tok
    rw [sortStr, (List.perm_insertionSort _ _).mem_iff, mem_dedupF]
    simp

theorem ywl_all_levels_summary_witness :
    ylookup (construct_with_yl exData) (.ks "All levels") =
      some (.vstr (joinSpace (sortStr (dedupF (ylTokens exData) [])))) ∧
    List.Sorted (fun a b : String => a ≤ b) (sortStr (dedupF (ylTokens exData) [])) ∧
    (sortStr (dedupF (ylTokens exData) [])).Nodup ∧
    (∀ tok, tok ∈ sortStr (dedupF (ylTokens exData) []) ↔ tok ∈ ylTokens exData) :=
  ywl_all_levels_summary exData (by decide)

/- ## Label strings: decimal digits and serial extraction -/

theorem digitChar_toNat (n : Nat) (h : n < 10) : (digitChar n).toNat = 48 + n := by
  interval_cases n <;> decide

theorem digitChar_ne_dot (n : Nat) (h : n < 10) : digitChar n ≠ '.' := by
  interval_cases n <;> decide

theorem digitChar_ne_colon (n : Nat) (h : n < 10) : digitChar n ≠ ':' := by
  interval_cases n <;> decide

theorem natChars_no_dot_colon :
    ∀ fuel n c, c ∈ natChars fuel n → c ≠ '.' ∧ c ≠ ':' := by
  intro fuel
  induction fuel with
  | zero => intro n c hc; simp [natChars] at hc
  | succ f ih =>
      intro n c hc
      rw [natChars] at hc
      by_cases h : n < 10
      · rw [if_pos h, List.mem_singleton] at hc
        subst hc
        exact ⟨digitChar_ne_dot n h, digitChar_ne_colon n h⟩
      · rw [if_neg h] at hc
        rcases List.mem_append.mp hc with h1 | h1
        · exact ih _ _ h1
        · rw [List.mem_singleton] at h1
          subst h1
          have hmod := Nat.mod_lt n (show 0 < 10 by decide)
          exact ⟨digitChar_ne_dot _ hmod, digitChar_ne_colon _ hmod⟩

theorem chVal_append_digit (l : List Char) (c : Char) :
    chVal (l ++ [c]) = 10 * chVal l + (c.toNat - 48) := by
  rw [chVal, List.foldl_append]
  rfl

theorem chVal_natChars : ∀ fuel n, n < fuel → chVal (natChars fuel n) = n := by
  intro fuel
  induction fuel with
  | zero => intro n h; omega
  | succ f ih =>
      intro n h
      rw [natChars]
      by_cases h10 : n < 10
      · rw [if_pos h10]
        rw [show ([digitChar n] : List Char) = [] ++ [digitChar n] from rfl,
          chVal_append_digit, digitChar_toNat n h10]
        show 10 * chVal [] + (48 + n - 48) = n
        rw [show chVal [] = 0 from rfl]
        omega
      · have hdiv : n / 10 < f := by
          have := Nat.div_lt_self (show 0 < n by omega) (show 1 < 10 by decide)
          omega
        rw [if_neg h10, chVal_append_digit, ih (n / 10) hdiv,
          digitChar_toNat _ (Nat.mod_lt n (show 0 < 10 by decide))]
        omega

theorem natStr_inj (a b : Nat) (h : natStr a = natStr b) : a = b := by
  have hd : natChars (a + 1) a = natChars (b + 1) b := by
    have h2 := congrArg String.data h
    simpa [natStr] using h2
  have ha := chVal_natChars (a + 1) a (by omega)
  have hb := chVal_natChars (b + 1) b (by omega)
  rw [← ha, ← hb, hd]

theorem strData_append (s t : String) : (s ++ t).data = s.data ++ t.data := by
  cases s
  cases t
  rfl

theorem dropWhile_append_all {p : Char → Bool} (l₁ l₂ : List Char)
    (h : ∀ c ∈ l₁, p c = true) :
    List.dropWhile p (l₁ ++ l₂) = List.dropWhile p l₂ := by
  induction l₁ with
  | nil => rfl
  | cons c cs ih =>
      rw [List.cons_append,
        List.dropWhile_cons_of_pos (h c (List.mem_cons_self _ _))]
      exact ih fun d hd => h d (List.mem_cons_of_mem _ hd)

theorem takeWhile_append_stop {p : Char → Bool} (l₁ : List Char) (c : Char)
    (l₂ : List Char) (h : ∀ d ∈ l₁, p d = true) (hc : p c = false) :
    List.takeWhile p (l₁ ++ c :: l₂) = l₁ := by
  induction l₁ with
  | nil =>
      simp only [List.nil_append]
      rw [List.takeWhile_cons_of_neg (by simp [hc])]
  | cons d ds ih =>
      rw [List.cons_append,
        List.takeWhile_cons_of_pos (h d (List.mem_cons_self _ _)),
        ih fun e he => h e (List.mem_cons_of_mem _ he)]

theorem serialChars_mkLabel (d s : Nat) (k : String) :
    serialChars (mkLabel d s k) = natChars (s + 1) s := by
  have hdata : (mkLabel d s k).data =
      natChars (d + 2) (d + 1) ++ '.' ::
        (natChars (s + 1) s ++ ':' :: ' ' :: k.data) := by
    rw [mkLabel]
    simp [strData_append, natStr]
  rw [serialChars, hdata]
  rw [dropWhile_append_all _ _ fun c hc =>
    decide_eq_true (natChars_no_dot_colon _ _ c hc).1]
  rw [List.dropWhile_cons_of_neg (by simp), List.drop_one, List.tail_cons]
  exact takeWhile_append_stop _ _ _
    (fun c hc => decide_eq_true (natChars_no_dot_colon _ _ c hc).2)
    (by simp)

theorem mkLabel_serial_inj (d₁ s₁ : Nat) (k₁ : String) (d₂ s₂ : Nat)
    (k₂ : String) (h : mkLabel d₁ s₁ k₁ = mkLabel d₂ s₂ k₂) : s₁ = s₂ := by
  have hs := congrArg serialChars h
  rw [serialChars_mkLabel, serialChars_mkLabel] at hs
  have h1 := chVal_natChars (s₁ + 1) s₁ (by omega)
  have h2 := chVal_natChars (s₂ + 1) s₂ (by omega)
  rw [← h1, ← h2, hs]

/- ## Counter-list and accumulator lemmas for the labeler -/

theorem getD_set_eq (l : List Nat) (d x : Nat) (h : d < l.length) :
    (l.set d x).getD d 0 = x := by
  induction l generalizing d with
  | nil => simp at h
  | cons y ys ih =>
      cases d with
      | zero => rfl
      | succ m =>
          rw [List.set_cons_succ, List.getD_cons_succ]
          exact ih m (by simpa using h)

theorem getD_set_ne (l : List Nat) (d x e : Nat) (h : d ≠ e) :
    (l.set d x).getD e 0 = l.getD e 0 := by
  induction l generalizing d e with
  | nil => simp
  | cons y ys ih =>
      cases d with
      | zero =>
          cases e with
          | zero => omega
          | succ m => rw [List.set_cons_zero, List.getD_cons_succ, List.getD_cons_succ]
      | succ m =>
          cases e with
          | zero => rw [List.set_cons_succ, List.getD_cons_zero, List.getD_cons_zero]
          | succ m2 =>
              rw [List.set_cons_succ, List.getD_cons_succ, List.getD_cons_succ]
              exact ih m m2 (by omega)

theorem getD_bump_ge (nid : List Nat) (d e : Nat) :
    nid.getD e 0 ≤ (bumpAt nid d).getD e 0 := by
  by_cases hde : d = e
  · subst hde
    by_cases hlen : d < nid.length
    · rw [bumpAt, getD_set_eq _ _ _ hlen]
      omega
    · rw [bumpAt, List.set_eq_of_length_le (by omega)]
  · rw [bumpAt, getD_set_ne _ _ _ _ hde]

theorem CtrOK_bump (nid hs : List Nat) (d : Nat) (hC : CtrOK nid hs)
    (hd : d < DEPTH) : CtrOK (bumpAt nid d) (hs ++ [d]) := by
  obtain ⟨hlen, hval⟩ := hC
  refine ⟨by rw [bumpAt, List.length_set, hlen], ?_⟩
  intro e he
  rw [List.count_append]
  by_cases hde : d = e
  · subst hde
    rw [bumpAt, getD_set_eq _ _ _ (by omega), hval d hd]
    simp only [List.count_singleton, beq_self_eq_true, if_true]
    omega
  · rw [bumpAt, getD_set_ne _ _ _ _ hde, hval e he]
    have : List.count e [d] = 0 := by
      simp [List.count_singleton]
      omega
    omega

theorem appendP_pnil (t : PList) : t.appendP .pnil = t := by
  induction t using PList.recP with
  | h0 => rfl
  | h1 k v rest ih => rw [PList.appendP, ih]

theorem appendP_assoc (a b c : PList) :
    (a.appendP b).appendP c = a.appendP (b.appendP c) := by
  induction a using PList.recP with
  | h0 => rfl
  | h1 k v rest ih => rw [PList.appendP, PList.appendP, PList.appendP, ih]

theorem keysL_appendP (a b : PList) :
    (a.appendP b).keysL = a.keysL ++ b.keysL := by
  induction a using PList.recP with
  | h0 => rfl
  | h1 k v rest ih => rw [PList.appendP, PList.keysL, PList.keysL, ih, List.cons_append]

theorem upd_eq_appendP (t : PList) (k : String) (v : PTree)
    (h : k ∉ t.keysL) : t.upd k v = t.appendP (.pcons k v .pnil) := by
  induction t using PList.recP with
  | h0 => rfl
  | h1 k₀ v₀ rest ih =>
      rw [PList.keysL, List.mem_cons] at h
      rw [PList.upd, if_neg (fun hc => h (Or.inl hc.symm)), PList.appendP,
        ih fun hc => h (Or.inr hc)]

theorem TrackOK_pnil (d : Nat) (hs : List Nat) : TrackOK d .pnil hs := by
  intro key hk
  simp [PList.keysL] at hk

theorem TrackOK_fresh (d : Nat) (track : PList) (hs : List Nat)
    (h : TrackOK d track hs) (key : String) :
    mkLabel d (1 + hs.count d) key ∉ track.keysL := by
  intro hc
  rcases h _ hc with ⟨s, k₀, heq, hlt⟩
  have := mkLabel_serial_inj _ _ _ _ _ _ heq
  omega

theorem TrackOK_snoc (d : Nat) (track : PList) (hs : List Nat) (key : String)
    (v : PTree) (h : TrackOK d track hs) (ext : List Nat) :
    TrackOK d (track.appendP (.pcons (mkLabel d (1 + hs.count d) key) v .pnil))
      (hs ++ d :: ext) := by
  intro kk hkk
  rw [keysL_appendP] at hkk
  rcases List.mem_append.mp hkk with h1 | h1
  · rcases h kk h1 with ⟨s, k₀, heq, hlt⟩
    refine ⟨s, k₀, heq, ?_⟩
    rw [List.count_append]
    omega
  · rw [show (PList.pcons (mkLabel d (1 + hs.count d) key) v .pnil).keysL =
      [mkLabel d (1 + hs.count d) key] from rfl, List.mem_singleton] at h1
    refine ⟨1 + hs.count d, key, h1, ?_⟩
    rw [List.count_append, List.count_cons_self]
    omega

/- ## Spec label sequence lemmas -/

theorem labelSeq_length (hs : List Nat) (l : List (Nat × String)) :
    (labelSeq hs l).length = l.length := by
  induction l generalizing hs with
  | nil => rfl
  | cons p rest ih =>
      obtain ⟨pd, ps⟩ := p
      rw [labelSeq, List.length_cons, List.length_cons, ih]

theorem labelSeq_append (l₁ : List (Nat × String)) :
    ∀ (hs : List Nat) (l₂ : List (Nat × String)),
      labelSeq hs (l₁ ++ l₂) =
        labelSeq hs l₁ ++ labelSeq (hs ++ l₁.map Prod.fst) l₂ := by
  induction l₁ with
  | nil => intro hs l₂; simp [labelSeq]
  | cons p rest ih =>
      intro hs l₂
      obtain ⟨pd, ps⟩ := p
      rw [List.cons_append, labelSeq, labelSeq, ih, List.cons_append, List.map_cons]
      rw [List.append_cons hs pd (rest.map Prod.fst)]

theorem map_const_of_length_eq {α β : Type} (l₁ : List α) (l₂ : List β)
    (c : String) (h : l₁.length = l₂.length) :
    (l₁.map fun _ => c) = l₂.map fun _ => c := by
  induction l₁ generalizing l₂ with
  | nil =>
      cases l₂ with
      | nil => rfl
      | cons _ _ => simp at h
  | cons x xs ih =>
      cases l₂ with
      | nil => simp at h
      | cons y ys =>
          rw [List.map_cons, List.map_cons, ih ys (by simpa using h)]

theorem labelElems_spec (els : List String) :
    ∀ (d : Nat) (nid hs : List Nat), CtrOK nid hs → (d < DEPTH ∨ els = []) →
      ((labelElems els d nid).1.map fun s => ((d : Nat), s)) =
        labelSeq hs (els.map fun s => ((d : Nat), s)) ∧
      CtrOK (labelElems els d nid).2 (hs ++ els.map fun _ => d) := by
  induction els with
  | nil =>
      intro d nid hs hC _
      exact ⟨rfl, by simpa using hC⟩
  | cons s rest ih =>
      intro d nid hs hC hd
      rcases hd with hd | hne
      · have hbump := CtrOK_bump nid hs d hC hd
        have hrec := ih d (bumpAt nid d) (hs ++ [d]) hbump (Or.inl hd)
        constructor
        · rw [labelElems]
          show ((labelOf d nid s :: (labelElems rest d (bumpAt nid d)).1).map
            fun s => ((d : Nat), s)) = _
          rw [List.map_cons, List.map_cons, labelSeq, labelOf, hC.2 d hd, hrec.1]
        · rw [labelElems]
          show CtrOK (labelElems rest d (bumpAt nid d)).2 _
          have h2 := hrec.2
          rw [List.append_assoc] at h2
          simpa using h2
      · exact absurd hne (by simp)

/- ## The labeler meets its specification -/

mutual
/-- One `recur_add_label` call appends exactly one labelled entry to `track`:
the key gets the running serial of its depth, the value's traversal is the
spec labelling continued after the key, the shape is preserved, and the
counters advance by exactly the traversed items. -/
theorem recur_add_label_spec :
    ∀ (key : String) (val : PTree) (d : Nat) (nid : List Nat) (track : PList)
      (hs : List Nat), d < DEPTH → okV (d + 1) val = true → CtrOK nid hs →
      TrackOK d track hs →
      ∃ newVal : PTree,
        (recur_add_label key val d nid track).1 =
          track.appendP (.pcons (mkLabel d (1 + hs.count d) key) newVal .pnil) ∧
        flattenT (d + 1) newVal = labelSeq (hs ++ [d]) (flattenT (d + 1) val) ∧
        blankT newVal = blankT val ∧
        CtrOK (recur_add_label key val d nid track).2
          (hs ++ d :: (flattenT (d + 1) val).map Prod.fst) ∧
        TrackOK d (recur_add_label key val d nid track).1
          (hs ++ d :: (flattenT (d + 1) val).map Prod.fst)
  | key, .arr elems, d, nid, track, hs => by
      intro hd hok hC hT
      have hd2 : d + 1 < DEPTH ∨ elems = [] := by
        rw [okV, Bool.or_eq_true] at hok
        rcases hok with h | h
        · exact Or.inr (List.isEmpty_iff.mp h)
        · exact Or.inl (of_decide_eq_true h)
      have hbump := CtrOK_bump nid hs d hC hd
      have hle := labelElems_spec elems (d + 1) (bumpAt nid d) (hs ++ [d]) hbump hd2
      have hlab : labelOf d nid key = mkLabel d (1 + hs.count d) key := by
        rw [labelOf, hC.2 d hd]
      have hres1 : (recur_add_label key (.arr elems) d nid track).1 =
          track.upd (labelOf d nid key)
            (.arr (labelElems elems (d + 1) (bumpAt nid d)).1) := rfl
      have hres2 : (recur_add_label key (.arr elems) d nid track).2 =
          (labelElems elems (d + 1) (bumpAt nid d)).2 := rfl
      have hmap : (flattenT (d + 1) (.arr elems)).map Prod.fst =
          elems.map fun _ => d + 1 := by
        show (elems.map fun s => ((d + 1 : Nat), s)).map Prod.fst = _
        rw [List.map_map]
        rfl
      refine ⟨.arr (labelElems elems (d + 1) (bumpAt nid d)).1, ?_, ?_, ?_, ?_, ?_⟩
      · rw [hres1, hlab]
        exact upd_eq_appendP _ _ _ (TrackOK_fresh d track hs hT key)
      · show ((labelElems elems (d + 1) (bumpAt nid d)).1.map
            fun s => ((d + 1 : Nat), s)) =
          labelSeq (hs ++ [d]) (elems.map fun s => ((d + 1 : Nat), s))
        exact hle.1
      · show PTree.arr ((labelElems elems (d + 1) (bumpAt nid d)).1.map
            fun _ => "") = .arr (elems.map fun _ => "")
        have hlen : (labelElems elems (d + 1) (bumpAt nid d)).1.length =
            elems.length := by
          have h2 := congrArg List.length hle.1
          rw [List.length_map, labelSeq_length, List.length_map] at h2
          exact h2
        rw [map_const_of_length_eq _ elems _ hlen]
      · rw [hres2, hmap]
        have h2 := hle.2
        rw [List.append_assoc] at h2
        simpa using h2
      · rw [hres1, hlab, upd_eq_appendP _ _ _ (TrackOK_fresh d track hs hT key)]
        exact TrackOK_snoc d track hs key _ hT _
  | key, .obj entries, d, nid, track, hs => by
      intro hd hok hC hT
      have hbump := CtrOK_bump nid hs d hC hd
      obtain ⟨newE, e1, e2, e3, e4, e5⟩ :=
        recur_add_label_list_spec entries (d + 1) (bumpAt nid d) .pnil
          (hs ++ [d]) hok hbump (TrackOK_pnil _ _)
      have hlab : labelOf d nid key = mkLabel d (1 + hs.count d) key := by
        rw [labelOf, hC.2 d hd]
      have hres1 : (recur_add_label key (.obj entries) d nid track).1 =
          track.upd (labelOf d nid key)
            (.obj (recur_add_label_list entries (d + 1) (bumpAt nid d) .pnil).1) := rfl
      have hres2 : (recur_add_label key (.obj entries) d nid track).2 =
          (recur_add_label_list entries (d + 1) (bumpAt nid d) .pnil).2 := rfl
      have hE : (recur_add_label_list entries (d + 1) (bumpAt nid d) .pnil).1 =
          newE := e1
      refine ⟨.obj newE, ?_, ?_, ?_, ?_, ?_⟩
      · rw [hres1, hlab, hE]
        exact upd_eq_appendP _ _ _ (TrackOK_fresh d track hs hT key)
      · show flattenL (d + 1) newE = labelSeq (hs ++ [d]) (flattenL (d + 1) entries)
        exact e2
      · show PTree.obj (blankL newE) = .obj (blankL entries)
        rw [e3]
      · rw [hres2]
        have h2 := e4
        rw [List.append_assoc] at h2
        simpa using h2
      · rw [hres1, hlab, hE, upd_eq_appendP _ _ _ (TrackOK_fresh d track hs hT key)]
        exact TrackOK_snoc d track hs key _ hT _

/-- The entry loop of the labeler appends one labelled entry per input entry,
realizing the spec labelling of the whole flattened entry sequence. -/
theorem recur_add_label_list_spec :
    ∀ (es : PList) (d : Nat) (nid : List Nat) (track : PList) (hs : List Nat),
      okL d es = true → CtrOK nid hs → TrackOK d track hs →
      ∃ newE : PList,
        (recur_add_label_list es d nid track).1 = track.appendP newE ∧
        flattenL d newE = labelSeq hs (flattenL d es) ∧
        blankL newE = blankL es ∧
        CtrOK (recur_add_label_list es d nid track).2
          (hs ++ (flattenL d es).map Prod.fst) ∧
        TrackOK d (recur_add_label_list es d nid track).1
          (hs ++ (flattenL d es).map Prod.fst)
  | .pnil, d, nid, track, hs => by
      intro _ hC hT
      refine ⟨.pnil, ?_, rfl, rfl, ?_, ?_⟩
      · rw [show (recur_add_label_list .pnil d nid track).1 = track from rfl,
          appendP_pnil]
      · rw [show (recur_add_label_list .pnil d nid track).2 = nid from rfl,
          show hs ++ (flattenL d .pnil).map Prod.fst = hs by simp [flattenL]]
        exact hC
      · rw [show (recur_add_label_list .pnil d nid track).1 = track from rfl,
          show hs ++ (flattenL d .pnil).map Prod.fst = hs by simp [flattenL]]
        exact hT
  | .pcons k v rest, d, nid, track, hs => by
      intro hok hC hT
      rw [okL, Bool.and_eq_true, Bool.and_eq_true] at hok
      obtain ⟨⟨hd, hokv⟩, hrest⟩ := hok
      replace hd := of_decide_eq_true hd
      obtain ⟨newVal, e1, e2, e3, e4, e5⟩ :=
        recur_add_label_spec k v d nid track hs hd hokv hC hT
      obtain ⟨newRest, f1, f2, f3, f4, f5⟩ :=
        recur_add_label_list_spec rest d (recur_add_label k v d nid track).2
          (recur_add_label k v d nid track).1
          (hs ++ d :: (flattenT (d + 1) v).map Prod.fst) hrest e4 e5
      have hres : recur_add_label_list (.pcons k v rest) d nid track =
          recur_add_label_list rest d (recur_add_label k v d nid track).2
            (recur_add_label k v d nid track).1 := rfl
      have hist : (hs ++ d :: (flattenT (d + 1) v).map Prod.fst) ++
            (flattenL d rest).map Prod.fst =
          hs ++ (flattenL d (.pcons k v rest)).map Prod.fst := by
        show _ = hs ++ ((d, k) :: (flattenT (d + 1) v ++ flattenL d rest)).map Prod.fst
        rw [List.map_cons, List.map_append]
        simp
      refine ⟨.pcons (mkLabel d (1 + hs.count d) k) newVal newRest, ?_, ?_, ?_, ?_, ?_⟩
      · rw [hres, f1, e1, appendP_assoc]
        rfl
      · show (((d : Nat), mkLabel d (1 + hs.count d) k) ::
            (flattenT (d + 1) newVal ++ flattenL d newRest)) =
          labelSeq hs (((d : Nat), k) :: (flattenT (d + 1) v ++ flattenL d rest))
        rw [labelSeq, labelSeq_append, ← e2, f2, List.append_assoc,
          List.singleton_append]
      · show PList.pcons "" (blankT newVal) (blankL newRest) =
            .pcons "" (blankT v) (blankL rest)
        rw [e3, f3]
      · rw [hres, ← hist]
        exact f4
      · rw [hres, ← hist]
        exact f5
end

theorem CtrOK_init : CtrOK (List.replicate DEPTH 1) [] := by
  refine ⟨by simp, ?_⟩
  intro e he
  have he4 : e < 4 := he
  interval_cases e <;> decide

/-- C3 (claim): on the plain builder's depth-bounded trees, `add_label`
returns a new tree of the same shape in which every mapping key and every
terminal-array element is rewritten to `"<depth+1>.<serial>: <original>"`,
the serial being the global-per-depth running count: one counter per depth,
all started at 1, advanced once per rewritten item, shared across all parents
at that depth, in traversal (= insertion) order. -/
theorem add_label_labels_globally (es : PList) (hok : okL 0 es = true) :
    flattenT 0 (add_label (.obj es)) = labelSeq [] (flattenT 0 (.obj es)) ∧
    blankT (add_label (.obj es)) = blankT (.obj es) := by
  obtain ⟨newE, e1, e2, e3, _, _⟩ :=
    recur_add_label_list_spec es 0 (List.replicate DEPTH 1) .pnil [] hok
      CtrOK_init (TrackOK_pnil _ _)
  have hadd : add_label (.obj es) = .obj newE := by
    show PTree.obj (recur_add_label_list es 0 (List.replicate DEPTH 1) .pnil).1 = _
    rw [e1]
    rfl
  constructor
  · rw [hadd]
    show flattenL 0 newE = labelSeq [] (flattenL 0 es)
    exact e2
  · rw [hadd]
    show PTree.obj (blankL newE) = .obj (blankL es)
    rw [e3]

theorem add_label_labels_globally_witness :
    flattenT 0 (add_label (.obj exPlain)) = labelSeq [] (flattenT 0 (.obj exPlain)) ∧
    blankT (add_label (.obj exPlain)) = blankT (.obj exPlain) :=
  add_label_labels_globally exPlain (by decide)

theorem labelElems_mono (els : List String) :
    ∀ (d : Nat) (nid : List Nat) (e : Nat),
      nid.getD e 0 ≤ ((labelElems els d nid).2).getD e 0 := by
  induction els with
  | nil => intro d nid e; exact le_refl _
  | cons s rest ih =>
      intro d nid e
      exact le_trans (getD_bump_ge nid d e) (ih d (bumpAt nid d) e)

mutual
theorem recur_add_label_mono :
    ∀ (key : String) (val : PTree) (d : Nat) (nid : List Nat) (track : PList)
      (e : Nat),
      nid.getD e 0 ≤ ((recur_add_label key val d nid track).2).getD e 0
  | _, .arr elems, d, nid, _, e =>
      le_trans (getD_bump_ge nid d e) (labelElems_mono elems (d + 1) (bumpAt nid d) e)
  | _, .obj entries, d, nid, _, e =>
      le_trans (getD_bump_ge nid d e)
        (recur_add_label_list_mono entries (d + 1) (bumpAt nid d) .pnil e)
theorem recur_add_label_list_mono :
    ∀ (es : PList) (d : Nat) (nid : List Nat) (track : PList) (e : Nat),
      nid.getD e 0 ≤ ((recur_add_label_list es d nid track).2).getD e 0
  | .pnil, _, _, _, _ => le_refl _
  | .pcons k v rest, d, nid, track, e =>
      le_trans (recur_add_label_mono k v d nid track e)
        (recur_add_label_list_mono rest d (recur_add_label k v d nid track).2
          (recur_add_label k v d nid track).1 e)
end

/-- C4 (claim): during one `add_label` traversal every per-depth serial
counter is monotone non-decreasing through every recursive step — it is
never reset mid-traversal — and the final counter at each depth `d` equals
its starting value 1 plus the number of label insertions at depth `d`. -/
theorem add_label_counter_invariants (es : PList) (d : Nat)
    (hok : okL 0 es = true) (hd : d < DEPTH) :
    (∀ (key : String) (val : PTree) (d' : Nat) (nid : List Nat) (track : PList)
        (e : Nat),
        nid.getD e 0 ≤ ((recur_add_label key val d' nid track).2).getD e 0) ∧
    (∀ (es' : PList) (d' : Nat) (nid : List Nat) (track : PList) (e : Nat),
        nid.getD e 0 ≤ ((recur_add_label_list es' d' nid track).2).getD e 0) ∧
    ((recur_add_label_list es 0 (List.replicate DEPTH 1) .pnil).2).getD d 0 =
      1 + ((flattenL 0 es).map Prod.fst).count d := by
  refine ⟨recur_add_label_mono, recur_add_label_list_mono, ?_⟩
  obtain ⟨newE, _, _, _, h4, _⟩ :=
    recur_add_label_list_spec es 0 (List.replicate DEPTH 1) .pnil [] hok
      CtrOK_init (TrackOK_pnil _ _)
  have h := h4.2 d hd
  simpa using h

theorem add_label_counter_invariants_witness :
    ((recur_add_label_list exPlain 0 (List.replicate DEPTH 1) .pnil).2).getD 3 0 =
      1 + ((flattenL 0 exPlain).map Prod.fst).count 3 :=
  (add_label_counter_invariants exPlain 3 (by decide) (by decide)).2.2

/- ## C8: double labelling is not idempotent -/

theorem mkLabel_length (s : String) : (mkLabel 0 1 s).length = 5 + s.length := by
  rw [mkLabel]
  rw [String.length_append, String.length_append, String.length_append,
    String.length_append]
  simp only [show (natStr (0 + 1)).length = 1 from rfl,
    show (natStr 1).length = 1 from rfl,
    show (".").length = 1 from rfl, show (": ").length = 2 from rfl]

theorem upd_ne_pnil (t : PList) (k : String) (v : PTree) : t.upd k v ≠ .pnil := by
  cases t with
  | pnil => simp [PList.upd]
  | pcons k₀ v₀ rest => by_cases h : k₀ = k <;> simp [PList.upd, h]

theorem headKeyO_upd (t : PList) (k : String) (v : PTree) (h : t ≠ .pnil) :
    headKeyO (t.upd k v) = headKeyO t := by
  cases t with
  | pnil => exact absurd rfl h
  | pcons k₀ v₀ rest => by_cases hk : k₀ = k <;> simp [PList.upd, hk, headKeyO]

theorem recur_result_upd (key : String) (val : PTree) (d : Nat)
    (nid : List Nat) (track : PList) :
    ∃ w, (recur_add_label key val d nid track).1 =
      track.upd (labelOf d nid key) w := by
  cases val with
  | arr elems => exact ⟨_, rfl⟩
  | obj entries => exact ⟨_, rfl⟩

theorem list_run_head (es : PList) :
    ∀ (d : Nat) (nid : List Nat) (track : PList), track ≠ .pnil →
      (recur_add_label_list es d nid track).1 ≠ .pnil ∧
      headKeyO (recur_add_label_list es d nid track).1 = headKeyO track := by
  induction es using PList.recP with
  | h0 => intro d nid track h; exact ⟨h, rfl⟩
  | h1 k v rest ih =>
      intro d nid track h
      obtain ⟨w, hw⟩ := recur_result_upd k v d nid track
      have hne : (recur_add_label k v d nid track).1 ≠ .pnil := by
        rw [hw]; exact upd_ne_pnil _ _ _
      have hhd : headKeyO (recur_add_label k v d nid track).1 = headKeyO track := by
        rw [hw]; exact headKeyO_upd _ _ _ h
      have hrec := ih d (recur_add_label k v d nid track).2
        (recur_add_label k v d nid track).1 hne
      exact ⟨hrec.1, hrec.2.trans hhd⟩

theorem add_label_head (k : String) (v : PTree) (rest : PList) :
    ∃ es₁, add_label (.obj (.pcons k v rest)) = .obj es₁ ∧ es₁ ≠ .pnil ∧
      headKeyO es₁ = some (mkLabel 0 1 k) := by
  obtain ⟨w, hw⟩ := recur_result_upd k v 0 (List.replicate DEPTH 1) .pnil
  have h1 : (recur_add_label k v 0 (List.replicate DEPTH 1) .pnil).1 =
      .pcons (labelOf 0 (List.replicate DEPTH 1) k) w .pnil := by
    rw [hw]; rfl
  have hne : (recur_add_label k v 0 (List.replicate DEPTH 1) .pnil).1 ≠ .pnil := by
    rw [h1]; exact fun h => PList.noConfusion h
  have hrun := list_run_head rest 0
    (recur_add_label k v 0 (List.replicate DEPTH 1) .pnil).2
    (recur_add_label k v 0 (List.replicate DEPTH 1) .pnil).1 hne
  refine ⟨(recur_add_label_list (.pcons k v rest) 0
    (List.replicate DEPTH 1) .pnil).1, rfl, hrun.1, ?_⟩
  have hh : headKeyO (recur_add_label k v 0 (List.replicate DEPTH 1) .pnil).1 =
      some (labelOf 0 (List.replicate DEPTH 1) k) := by
    rw [h1]; rfl
  exact hrun.2.trans hh

/-- C8 (claim): `add_label` is not idempotent on (any non-empty) mapping-rooted
plain trees: a second application re-labels the already labelled keys, so the
double application differs from the single one. -/
theorem add_label_not_idempotent (k : String) (v : PTree) (rest : PList)
    (_hok : okL 0 (.pcons k v rest) = true) :
    add_label (add_label (.obj (.pcons k v rest))) ≠
      add_label (.obj (.pcons k v rest)) := by
  obtain ⟨es₁, h1, hne, hhead⟩ := add_label_head k v rest
  cases es₁ with
  | pnil => exact absurd rfl hne
  | pcons k₁ v₁ r₁ =>
      obtain ⟨es₂, h2, _, hhead2⟩ := add_label_head k₁ v₁ r₁
      intro heq
      rw [h1, h2] at heq
      injection heq with hes
      rw [hes, headKeyO] at hhead2
      injection hhead2 with hh
      have hlen := congrArg String.length hh
      rw [mkLabel_length] at hlen
      omega

theorem add_label_not_idempotent_witness :
    add_label (add_label (.obj exPlain)) ≠ add_label (.obj exPlain) :=
  add_label_not_idempotent "x"
    (.obj (.pcons "y" (.obj (.pcons "p" (.arr ["q", "r"]) .pnil)) .pnil)) .pnil
    (by decide)

/- ## C9: `add_label` never writes to pre-existing heap objects -/

theorem hget_hset (h : Heap) (a : Nat) (o : HObj) (b : Nat) :
    hget (hset h a o) b = if a = b then some o else hget h b := by
  induction h with
  | nil => by_cases hab : a = b <;> simp [hset, hget, hab]
  | cons p rest ih =>
      rw [show p = (p.1, p.2) from rfl, hset]
      by_cases hpa : p.1 = a
      · subst hpa
        by_cases hb : p.1 = b <;> simp [hget, hb]
      · by_cases hb : p.1 = b <;> by_cases hab : a = b <;>
          simp_all [hget, ih]

theorem hget_mem (h : Heap) (a : Nat) (o : HObj) (hg : hget h a = some o) :
    (a, o) ∈ h := by
  induction h with
  | nil => simp [hget] at hg
  | cons p rest ih =>
      rw [show p = (p.1, p.2) from rfl, hget] at hg
      by_cases hpa : p.1 = a
      · rw [if_pos hpa] at hg
        injection hg with hg
        rw [← hpa, ← hg]
        exact List.mem_cons_self _ _
      · rw [if_neg hpa] at hg
        exact List.mem_cons_of_mem _ (ih hg)

theorem dictInsertH_frame (h : Heap) (addr : Nat) (k : String) (v : Nat)
    (h' : Heap) (hrun : dictInsertH h addr k v = some h') :
    ∀ b, b ≠ addr → hget h' b = hget h b := by
  intro b hb
  rw [dictInsertH] at hrun
  cases hg : hget h addr with
  | none => rw [hg] at hrun; simp at hrun
  | some o =>
      rw [hg] at hrun
      cases o with
      | hlist es => simp at hrun
      | hdict es =>
          simp only [Option.some.injEq] at hrun
          rw [← hrun, hget_hset, if_neg (fun hc => hb hc.symm)]

theorem listAppendH_frame (h : Heap) (addr : Nat) (s : String) (h' : Heap)
    (hrun : listAppendH h addr s = some h') :
    ∀ b, b ≠ addr → hget h' b = hget h b := by
  intro b hb
  rw [listAppendH] at hrun
  cases hg : hget h addr with
  | none => rw [hg] at hrun; simp at hrun
  | some o =>
      rw [hg] at hrun
      cases o with
      | hdict es => simp at hrun
      | hlist es =>
          simp only [Option.some.injEq] at hrun
          rw [← hrun, hget_hset, if_neg (fun hc => hb hc.symm)]

theorem labelElemsH_frame (els : List String) :
    ∀ (d : Nat) (h : Heap) (la : Nat) (nid : List Nat) (r : Heap × List Nat),
      labelElemsH els d h la nid = some r →
      ∀ b, b ≠ la → hget r.1 b = hget h b := by
  induction els with
  | nil =>
      intro d h la nid r hrun b hb
      rw [labelElemsH] at hrun
      injection hrun with hrun
      rw [← hrun]
  | cons s rest ih =>
      intro d h la nid r hrun b hb
      rw [labelElemsH] at hrun
      cases ha : listAppendH h la (labelOf d nid s) with
      | none => rw [ha] at hrun; simp at hrun
      | some h1 =>
          rw [ha] at hrun
          rw [ih (d) h1 la (bumpAt nid d) r hrun b hb]
          exact listAppendH_frame h la _ h1 ha b hb

theorem recurAddLabelH_succ (fuel track : Nat) (key : String)
    (valAddr d : Nat) (h : Heap) (nxt : Nat) (nid : List Nat) :
    recurAddLabelH (fuel + 1) track key valAddr d h nxt nid =
      match hget h valAddr with
      | some (.hlist elems) =>
          match dictInsertH (hset h nxt (.hlist [])) track (labelOf d nid key)
              nxt with
          | some h2 =>
              match labelElemsH elems (d + 1) h2 nxt (bumpAt nid d) with
              | some r => some (r.1, nxt + 1, r.2)
              | none => none
          | none => none
      | some (.hdict entries) =>
          match dictInsertH (hset h nxt (.hdict [])) track (labelOf d nid key)
              nxt with
          | some h2 =>
              goEntriesH fuel nxt entries (d + 1) h2 (nxt + 1) (bumpAt nid d)
          | none => none
      | none => none := rfl

theorem goEntriesH_cons (fuel track : Nat) (k : String) (a : Nat)
    (rest : List (String × Nat)) (d : Nat) (h : Heap) (nxt : Nat)
    (nid : List Nat) :
    goEntriesH (fuel + 1) track ((k, a) :: rest) d h nxt nid =
      match recurAddLabelH fuel track k a d h nxt nid with
      | some r => goEntriesH fuel track rest d r.1 r.2.1 r.2.2
      | none => none := rfl

/-- The joint frame property of the two mutual heap traversals: if the run
succeeds and every address below `n₀` is at most `track` and at most the
allocation counter, all addresses below `n₀` are untouched and the counter
never decreases. -/
theorem frameMut (fuel : Nat) :
    (∀ (track : Nat) (key : String) (valAddr d : Nat) (h : Heap) (nxt : Nat)
        (nid : List Nat) (res : Heap × Nat × List Nat) (n₀ : Nat),
        recurAddLabelH fuel track key valAddr d h nxt nid = some res →
        n₀ ≤ track → n₀ ≤ nxt →
        (∀ a, a < n₀ → hget res.1 a = hget h a) ∧ nxt ≤ res.2.1) ∧
    (∀ (track : Nat) (entries : List (String × Nat)) (d : Nat) (h : Heap)
        (nxt : Nat) (nid : List Nat) (res : Heap × Nat × List Nat) (n₀ : Nat),
        goEntriesH fuel track entries d h nxt nid = some res →
        n₀ ≤ track → n₀ ≤ nxt →
        (∀ a, a < n₀ → hget res.1 a = hget h a) ∧ nxt ≤ res.2.1) := by
  induction fuel with
  | zero =>
      refine ⟨?_, ?_⟩
      · intro track key valAddr d h nxt nid res n₀ hrun _htr _hnx
        rw [show recurAddLabelH 0 track key valAddr d h nxt nid = none
          from rfl] at hrun
        exact Option.noConfusion hrun
      · intro track entries d h nxt nid res n₀ hrun _htr _hnx
        rw [show goEntriesH 0 track entries d h nxt nid = none
          from rfl] at hrun
        exact Option.noConfusion hrun
  | succ f ih =>
      obtain ⟨ihR, ihG⟩ := ih
      refine ⟨?_, ?_⟩
      · intro track key valAddr d h nxt nid res n₀ hrun htr hnx
        rw [recurAddLabelH_succ] at hrun
        cases hv : hget h valAddr with
        | none =>
            rw [hv] at hrun
            exact Option.noConfusion hrun
        | some o =>
            rw [hv] at hrun
            cases o with
            | hlist elems =>
                dsimp only [] at hrun
                cases hd2 : dictInsertH (hset h nxt (HObj.hlist [])) track
                    (labelOf d nid key) nxt with
                | none =>
                    rw [hd2] at hrun
                    exact Option.noConfusion hrun
                | some h2 =>
                    rw [hd2] at hrun
                    dsimp only [] at hrun
                    cases hle : labelElemsH elems (d + 1) h2 nxt
                        (bumpAt nid d) with
                    | none =>
                        rw [hle] at hrun
                        exact Option.noConfusion hrun
                    | some r =>
                        rw [hle] at hrun
                        dsimp only [] at hrun
                        injection hrun with hrun
                        subst hrun
                        refine ⟨?_, Nat.le_succ nxt⟩
                        intro a ha
                        have h1 : hget r.1 a = hget h2 a :=
                          labelElemsH_frame elems (d + 1) h2 nxt (bumpAt nid d)
                            r hle a (Nat.ne_of_lt (lt_of_lt_of_le ha hnx))
                        have h2f : hget h2 a =
                            hget (hset h nxt (HObj.hlist [])) a :=
                          dictInsertH_frame _ track _ nxt h2 hd2 a
                            (Nat.ne_of_lt (lt_of_lt_of_le ha htr))
                        have h3 : hget (hset h nxt (HObj.hlist [])) a =
                            hget h a := by
                          rw [hget_hset, if_neg (Ne.symm (Nat.ne_of_lt
                            (lt_of_lt_of_le ha hnx)))]
                        exact h1.trans (h2f.trans h3)
            | hdict entries =>
                dsimp only [] at hrun
                cases hd2 : dictInsertH (hset h nxt (HObj.hdict [])) track
                    (labelOf d nid key) nxt with
                | none =>
                    rw [hd2] at hrun
                    exact Option.noConfusion hrun
                | some h2 =>
                    rw [hd2] at hrun
                    dsimp only [] at hrun
                    have hmain := ihG nxt entries (d + 1) h2 (nxt + 1)
                      (bumpAt nid d) res n₀ hrun hnx (Nat.le_succ_of_le hnx)
                    refine ⟨?_, Nat.le_of_succ_le hmain.2⟩
                    intro a ha
                    rw [hmain.1 a ha]
                    have h2f : hget h2 a =
                        hget (hset h nxt (HObj.hdict [])) a :=
                      dictInsertH_frame _ track _ nxt h2 hd2 a
                        (Nat.ne_of_lt (lt_of_lt_of_le ha htr))
                    rw [h2f, hget_hset, if_neg (Ne.symm (Nat.ne_of_lt
                      (lt_of_lt_of_le ha hnx)))]
      · intro track entries d h nxt nid res n₀ hrun htr hnx
        cases entries with
        | nil =>
            rw [show goEntriesH (f + 1) track [] d h nxt nid =
              some (h, nxt, nid) from rfl] at hrun
            injection hrun with hrun
            subst hrun
            exact ⟨fun a _ => rfl, Nat.le_refl _⟩
        | cons p rest =>
            obtain ⟨k, a0⟩ := p
            rw [goEntriesH_cons] at hrun
            cases hr : recurAddLabelH f track k a0 d h nxt nid with
            | none =>
                rw [hr] at hrun
                exact Option.noConfusion hrun
            | some r =>
                rw [hr] at hrun
                dsimp only [] at hrun
                have f1 := ihR track k a0 d h nxt nid r n₀ hr htr hnx
                have f2 := ihG track rest d r.1 r.2.1 r.2.2 res n₀ hrun htr
                  (le_trans hnx f1.2)
                exact ⟨fun a ha => (f2.1 a ha).trans (f1.1 a ha),
                  le_trans f1.2 f2.2⟩

theorem heapClosedB_spec (h : Heap) (n : Nat) (hcl : heapClosedB h n = true) :
    ∀ p ∈ h, p.1 < n ∧ ∀ b ∈ addrsOf p.2, b < n := by
  intro p hp
  rw [heapClosedB, List.all_eq_true] at hcl
  have hh := hcl p hp
  rw [Bool.and_eq_true] at hh
  refine ⟨of_decide_eq_true hh.1, fun b hb => ?_⟩
  exact of_decide_eq_true (List.all_eq_true.mp hh.2 b hb)

theorem readH_inl (fuel : Nat) (h : Heap) (a : Nat) :
    readH (fuel + 1) h (.inl a) =
      match hget h a with
      | some (.hlist es) => some (.inl (.arr es))
      | some (.hdict entries) =>
          match readH fuel h (.inr entries) with
          | some (.inr ps) => some (.inl (.obj ps))
          | _ => none
      | none => none := rfl

theorem readH_cons (fuel : Nat) (h : Heap) (k : String) (a : Nat)
    (rest : List (String × Nat)) :
    readH (fuel + 1) h (.inr ((k, a) :: rest)) =
      match readH fuel h (.inl a), readH fuel h (.inr rest) with
      | some (.inl v), some (.inr ps) => some (.inr (.pcons k v ps))
      | _, _ => none := rfl

/-- Reading through a closed heap only dereferences addresses below the
closure bound, so a heap agreeing below that bound decodes identically. -/
theorem readH_frame (n₀ : Nat) (h h' : Heap)
    (hcl : ∀ p ∈ h, p.1 < n₀ ∧ ∀ b ∈ addrsOf p.2, b < n₀)
    (hfr : ∀ a, a < n₀ → hget h' a = hget h a) :
    ∀ fuel : Nat,
      (∀ a, a < n₀ → readH fuel h' (.inl a) = readH fuel h (.inl a)) ∧
      (∀ entries : List (String × Nat),
        (∀ b ∈ entries.map Prod.snd, b < n₀) →
        readH fuel h' (.inr entries) = readH fuel h (.inr entries)) := by
  intro fuel
  induction fuel with
  | zero =>
      refine ⟨fun a _ => rfl, fun entries _ => ?_⟩
      cases entries with
      | nil => rfl
      | cons p rest => rfl
  | succ f ih =>
      refine ⟨?_, ?_⟩
      · intro a ha
        rw [readH_inl, readH_inl, hfr a ha]
        cases hv : hget h a with
        | none => rfl
        | some o =>
            cases o with
            | hlist es => rfl
            | hdict entries =>
                dsimp only []
                have haddr : ∀ b ∈ entries.map Prod.snd, b < n₀ :=
                  (hcl _ (hget_mem h a _ hv)).2
                rw [ih.2 entries haddr]
      · intro entries hbs
        cases entries with
        | nil => rfl
        | cons p rest =>
            obtain ⟨k, b⟩ := p
            rw [readH_cons, readH_cons]
            have hb : b < n₀ := hbs b (by simp)
            have hrest : ∀ b2 ∈ rest.map Prod.snd, b2 < n₀ := by
              intro b2 hb2
              exact hbs b2 (by simp [hb2])
            rw [ih.1 b hb, ih.2 rest hrest]

theorem readT_frame (n₀ : Nat) (h h' : Heap)
    (hcl : ∀ p ∈ h, p.1 < n₀ ∧ ∀ b ∈ addrsOf p.2, b < n₀)
    (hfr : ∀ a, a < n₀ → hget h' a = hget h a)
    (fuel a : Nat) (ha : a < n₀) :
    readT fuel h' a = readT fuel h a := by
  unfold readT
  rw [(readH_frame n₀ h h' hcl hfr fuel).1 a ha]

theorem addLabelH_frame (fuel dataAddr : Nat) (h : Heap) (nxt : Nat)
    (out : Nat) (h' : Heap) (nxt' : Nat)
    (hrun : addLabelH fuel dataAddr h nxt = some (out, h', nxt')) :
    ∀ a, a < nxt → hget h' a = hget h a := by
  intro a ha
  rw [addLabelH] at hrun
  cases hv : hget h dataAddr with
  | none =>
      rw [hv] at hrun
      exact Option.noConfusion hrun
  | some o =>
      rw [hv] at hrun
      cases o with
      | hlist es =>
          dsimp only [] at hrun
          exact Option.noConfusion hrun
      | hdict entries =>
          dsimp only [] at hrun
          cases hg : goEntriesH fuel nxt entries 0 (hset h nxt (.hdict []))
              (nxt + 1) (List.replicate DEPTH 1) with
          | none =>
              rw [hg] at hrun
              exact Option.noConfusion hrun
          | some r =>
              rw [hg] at hrun
              dsimp only [] at hrun
              injection hrun with hrun
              have hmain := (frameMut fuel).2 nxt entries 0
                (hset h nxt (.hdict [])) (nxt + 1) (List.replicate DEPTH 1) r
                nxt hg (Nat.le_refl nxt) (Nat.le_succ nxt)
              have h1 : hget r.1 a = hget (hset h nxt (.hdict [])) a :=
                hmain.1 a ha
              have h2 : hget (hset h nxt (HObj.hdict [])) a = hget h a := by
                rw [hget_hset, if_neg (Ne.symm (Nat.ne_of_lt ha))]
              have hh' : h' = r.1 :=
                congrArg (fun p : Nat × Heap × Nat => p.2.1) hrun.symm
              rw [hh', h1, h2]

/-- C9: `add_label` never mutates its input tree: if the heap run of
`add_label` succeeds on a closed heap, every address allocated before the
call (in particular every object of the input tree) maps to the same object
in the final heap, and the tree decoded at the input root is identical
before and after the call at every fuel — the labelled result is built
entirely from freshly allocated mappings and lists. -/
theorem add_label_no_mutation (fuel dataAddr : Nat) (h : Heap) (nxt : Nat)
    (out : Nat) (h' : Heap) (nxt' : Nat)
    (hrun : addLabelH fuel dataAddr h nxt = some (out, h', nxt'))
    (hcl : heapClosedB h nxt = true) :
    (∀ a, a < nxt → hget h' a = hget h a) ∧
    (∀ f, readT f h' dataAddr = readT f h dataAddr) := by
  have hfr := addLabelH_frame fuel dataAddr h nxt out h' nxt' hrun
  have hclS := heapClosedB_spec h nxt hcl
  have hd : dataAddr < nxt := by
    rw [addLabelH] at hrun
    cases hv : hget h dataAddr with
    | none =>
        rw [hv] at hrun
        exact Option.noConfusion hrun
    | some o => exact (hclS _ (hget_mem h dataAddr o hv)).1
  exact ⟨hfr, fun f => readT_frame nxt h h' hclS hfr f dataAddr hd⟩

/-- Concrete instance of C9: running `add_label` on the two-object heap
holding `{"x": ["q"]}` leaves the input objects and the decoded input tree
untouched. -/
theorem add_label_no_mutation_witness :
    hget [(0, HObj.hdict [("x", 1)]), (1, HObj.hlist ["q"]),
        (2, HObj.hdict [("1.1: x", 3)]), (3, HObj.hlist ["2.1: q"])] 0 =
      hget exHeap 0 ∧
    readT 3 [(0, HObj.hdict [("x", 1)]), (1, HObj.hlist ["q"]),
        (2, HObj.hdict [("1.1: x", 3)]), (3, HObj.hlist ["2.1: q"])] 0 =
      readT 3 exHeap 0 := by
  have hm := add_label_no_mutation 9 0 exHeap 2 2
    [(0, HObj.hdict [("x", 1)]), (1, HObj.hlist ["q"]),
     (2, HObj.hdict [("1.1: x", 3)]), (3, HObj.hlist ["2.1: q"])] 4
    (by decide) (by decide)
  exact ⟨hm.1 0 (by decide), hm.2 3⟩
